import Mathlib

/-!
# Verification of the `find_heavy_dirs` traversal-and-aggregation core

A shallow embedding of `cmd/find_heavy_dirs.go` (repository `pyoy/fs-analyzer`).

Modelling conventions:

* Go strings (byte slices) are modelled as `List Char`; on the byte level every
  path operation in the program (`strings.Count`, `strings.HasPrefix`,
  `filepath.Dir`, `sort.Strings`, string concatenation) acts exactly like the
  corresponding list operation, and all example paths are ASCII.
* The target platform is Unix: `os.PathSeparator` is `'/'` and
  `filepath.VolumeName` is empty.
* `filepath.Abs` / `filepath.Clean` are modelled as the identity; all paths fed
  to the model are already absolute and clean, which is the situation the
  analysed properties talk about.
* The filesystem is a finite tree.  Entries whose metadata or contents cannot
  be read (the error cases the program tolerates) are modelled by the
  `badFile` / `badDir` constructors: `fs.WalkDir` reports such errors through
  the callback, and the program's callback returns `nil`, skipping the entry.
* `int64` arithmetic is modelled by `Int`; the program performs only additions
  of file sizes and counts, and none of the analysed properties depend on
  64-bit wrap-around.
* Go map iteration order is unspecified and `sort.Slice` is unstable; the
  model keeps the statistics collection as an insertion-ordered association
  list and uses insertion sort.  The resulting processing order is one of the
  orders the program may use; the bottom-up aggregation theorems are proved
  for every order that sorts by non-increasing length, covering all tie
  resolutions.
-/

namespace FindHeavyDirs

/-- A path, i.e. a Go string viewed as its list of characters. -/
abbrev Path := List Char

/-- `os.PathSeparator` on Unix. -/
def sep : Char := '/'

/-- `strings.Count(path, string(os.PathSeparator))`. -/
def countSep (p : Path) : Nat := p.countP (fun c => c = sep)

/-- `strings.HasPrefix s pre`. -/
def hasPrefix (s pre : Path) : Bool := decide (pre <+: s)

/-- `filepath.Dir` for clean paths: everything before the last separator;
`"/"` if the last separator is the leading one; `"."` if there is none. -/
def dirOf (p : Path) : Path :=
  match p.reverse.dropWhile (fun c => c ≠ sep) with
  | [] => ['.']
  | _ :: rest => if rest = [] then [sep] else rest.reverse

/-- `filepath.Join(dir, name)` for a clean directory path and a bare name. -/
def childPath (d n : Path) : Path := if d = [sep] then sep :: n else d ++ sep :: n

/-- The per-directory record (`DirStat` without the unused fields): running
total size and file count.  Before aggregation these are the direct values,
after aggregation the cumulative ones. -/
structure Stat where
  totalSize : Int
  fileCount : Int
deriving Repr, DecidableEq, Inhabited

/-- The `dirStats` map, as an insertion-ordered association list. -/
abbrev DirStats := List (Path × Stat)

/-- Look a directory up in the collection. -/
def lookupStat (st : DirStats) (p : Path) : Option Stat :=
  match st with
  | [] => none
  | (q, s) :: rest => if q = p then some s else lookupStat rest p

/-- Update the entry for `p` (initialising it to zero if absent), applying `f`
to its current value.  `getDirStat` and the file-recording code are both
instances of this. -/
def updateStat (st : DirStats) (p : Path) (f : Stat → Stat) : DirStats :=
  match st with
  | [] => [(p, f ⟨0, 0⟩)]
  | (q, s) :: rest => if q = p then (q, f s) :: rest else (q, s) :: updateStat rest p f

/-- `getDirStat`: make sure the directory has an entry. -/
def getDirStat (p : Path) (st : DirStats) : DirStats := updateStat st p id

/-- Record one file of size `sz` against directory `p` (its immediate parent):
`s.TotalSize += info.Size(); s.FileCount++`. -/
def addFile (p : Path) (sz : Int) (st : DirStats) : DirStats :=
  updateStat st p (fun s => ⟨s.totalSize + sz, s.fileCount + 1⟩)

-- One filesystem entry.  `badFile` is a file whose `d.Info()` call fails,
-- `badDir` a directory whose `os.ReadDir` fails; both are the non-fatal error
-- cases of §7 of the specification.
mutual
inductive FSEntry where
  | file (name : Path) (size : Int) : FSEntry
  | badFile (name : Path) : FSEntry
  | dir (name : Path) (entries : FSList) : FSEntry
  | badDir (name : Path) : FSEntry
inductive FSList where
  | nil : FSList
  | cons (e : FSEntry) (es : FSList) : FSList
end

/-- The name of an entry. -/
def FSEntry.name : FSEntry → Path
  | .file n _ => n
  | .badFile n => n
  | .dir n _ => n
  | .badDir n => n

-- The `fs.WalkDir` callback of `scanDirectory`, together with `WalkDir`'s own
-- recursion.  `md` is `maxDepth`, `ex` the exclusion list, `rd` the precomputed
-- `rootDepth`.  The state is the statistics collection plus the running file
-- count.  The branches mirror the callback body in order: exclusion pruning
-- (directories only), depth pruning, then the statistics logic.
mutual
def walkEntry (md : Int) (ex : List Path) (rd : Nat) (path : Path) (e : FSEntry)
    (st : DirStats) (cnt : Nat) : DirStats × Nat :=
  match e with
  | .file _ sz =>
      if md ≠ -1 ∧ (countSep path : Int) - (rd : Int) > md then (st, cnt)
      else (addFile (dirOf path) sz st, cnt + 1)
  | .badFile _ =>
      if md ≠ -1 ∧ (countSep path : Int) - (rd : Int) > md then (st, cnt)
      else (st, cnt)
  | .dir _ es =>
      if ex.contains path then (st, cnt)
      else if md ≠ -1 ∧ (countSep path : Int) - (rd : Int) > md then (st, cnt)
      else walkList md ex rd path es (getDirStat path st) cnt
  | .badDir _ =>
      if ex.contains path then (st, cnt)
      else if md ≠ -1 ∧ (countSep path : Int) - (rd : Int) > md then (st, cnt)
      else (getDirStat path st, cnt)
def walkList (md : Int) (ex : List Path) (rd : Nat) (d : Path) (es : FSList)
    (st : DirStats) (cnt : Nat) : DirStats × Nat :=
  match es with
  | .nil => (st, cnt)
  | .cons e rest =>
      let r := walkEntry md ex rd (childPath d e.name) e st cnt
      walkList md ex rd d rest r.1 r.2
end

/-- `scanDirectory(root)`: walk the tree rooted at the absolute path `root`,
extending the shared collection `st`; returns the new collection and the
number of files recorded. -/
def scanDirectory (md : Int) (ex : List Path) (root : Path) (t : FSEntry)
    (st : DirStats) : DirStats × Nat :=
  walkEntry md ex (countSep root) root t st 0

/-- The multi-root scan loop of `main`: a root that fails to resolve
(`filepath.Abs` error, or the root vanishing before its walk starts) is
modelled by `none`; it is reported and skipped, the loop continues. -/
def runScan (md : Int) (ex : List Path) (roots : List (Path × Option FSEntry)) :
    DirStats × Nat :=
  roots.foldl
    (fun acc r =>
      match r.2 with
      | none => acc
      | some t =>
          let s := scanDirectory md ex r.1 t acc.1
          (s.1, acc.2 + s.2))
    ([], 0)

/-- Insert into a list sorted by non-increasing length; used to model
`sort.Slice(paths, func(i, j) { return len(paths[i]) > len(paths[j]) })`. -/
def insertByLen (p : Path) : List Path → List Path
  | [] => [p]
  | q :: rest => if p.length > q.length then p :: q :: rest else q :: insertByLen p rest

/-- Sort by non-increasing string length (the program's "simple approximation
of depth by string length"). -/
def sortByLenDesc (ps : List Path) : List Path :=
  ps.foldr insertByLen []

/-- One step of the bottom-up accumulation of `aggregateStats`: fold the
directory `p` into its parent if the parent is itself in the collection,
skipping the self-parent case. -/
def aggStep (st : DirStats) (p : Path) : DirStats :=
  if dirOf p = p then st
  else
    match lookupStat st (dirOf p), lookupStat st p with
    | some ps, some cs =>
        updateStat st (dirOf p)
          (fun _ => ⟨ps.totalSize + cs.totalSize, ps.fileCount + cs.fileCount⟩)
    | _, _ => st

/-- `aggregateStats`: collect all keys, sort them by non-increasing string
length, then run the accumulation sweep. -/
def aggregateStats (st : DirStats) : DirStats :=
  (sortByLenDesc (st.map Prod.fst)).foldl aggStep st

/-- `isUnderTargets`: `strings.HasPrefix(path, absRoot)` against any target. -/
def isUnderTargets (targets : List Path) (p : Path) : Bool :=
  targets.any (fun root => hasPrefix p root)

/-- The output filtering in `main`: keep only entries under the targets. -/
def filterStats (targets : List Path) (st : DirStats) : DirStats :=
  st.filter (fun e => isUnderTargets targets e.1)

/-- Lexicographic (byte-wise) order on paths, as compared by `sort.Strings`. -/
def lexLe : Path → Path → Bool
  | [], _ => true
  | _ :: _, [] => false
  | a :: as, b :: bs => if a = b then lexLe as bs else decide (a < b)

/-- Insertion into a lexicographically sorted list. -/
def insertLex (p : Path) : List Path → List Path
  | [] => [p]
  | q :: rest => if lexLe p q then p :: q :: rest else q :: insertLex p rest

/-- `sort.Strings`. -/
def sortLex (ps : List Path) : List Path :=
  ps.foldr insertLex []

/-- The left-to-right sweep of `removeSubdirectories`: each candidate is
compared only against the last accepted path.  The three tests mirror the
source: duplicate, strict child (`HasPrefix(p, last+"/")`), and the
filesystem-root special case (`last == VolumeName(last)+"/"`, which on Unix
is `last == "/"`). -/
def sweep (acc : List Path) : List Path → List Path
  | [] => acc
  | p :: rest =>
      match acc.getLast? with
      | none => sweep (acc ++ [p]) rest
      | some last =>
          if p = last then sweep acc rest
          else if hasPrefix p (last ++ [sep]) then sweep acc rest
          else if last = [sep] ∧ hasPrefix p last then sweep acc rest
          else sweep (acc ++ [p]) rest

/-- `removeSubdirectories`: resolve to absolute paths (modelled as the
identity on the already-absolute inputs), sort lexicographically, sweep. -/
def removeSubdirectories (paths : List Path) : List Path :=
  if paths.isEmpty then paths
  else sweep [] (sortLex paths)

/-- The row-selection logic of `printTable`: `limit := topN; if len(list) <
limit { limit = len(list) }` followed by the loop `for i := 0; i < limit`.
Returns the rows actually printed. -/
def tableRows (topN : Int) (list : DirStats) : DirStats :=
  let limit : Int := if (list.length : Int) < topN then (list.length : Int) else topN
  list.take limit.toNat

/-- Insertion into a list sorted by non-increasing total size. -/
def insertBySize (e : Path × Stat) : DirStats → DirStats
  | [] => [e]
  | f :: rest =>
      if e.2.totalSize > f.2.totalSize then e :: f :: rest else f :: insertBySize e rest

/-- `sort.Slice` by `TotalSize` descending (one of the unstable orders). -/
def sortBySize (st : DirStats) : DirStats := st.foldr insertBySize []

/-- Insertion into a list sorted by non-increasing file count. -/
def insertByCount (e : Path × Stat) : DirStats → DirStats
  | [] => [e]
  | f :: rest =>
      if e.2.fileCount > f.2.fileCount then e :: f :: rest else f :: insertByCount e rest

/-- `sort.Slice` by `FileCount` descending (one of the unstable orders). -/
def sortByCount (st : DirStats) : DirStats := st.foldr insertByCount []

/-- The default exclusion list of the program. -/
def defaultExclude : List Path :=
  ["/proc".data, "/dev".data, "/sys".data, "/run".data]

/-- The directory-prefix of `d`: `d` followed by a separator (`d` itself if
`d` is the filesystem root).  A path lies strictly under `d` exactly when it
extends `dirSep d`. -/
def dirSep (d : Path) : Path := if d = [sep] then d else d ++ [sep]

/-- `k` lies strictly below the directory `d`. -/
def below (d k : Path) : Prop := dirSep d <+: k ∧ k ≠ d

/-- `k` is `d` itself or lies strictly below it ("the visited subtree"). -/
def belowEq (d k : Path) : Prop := k = d ∨ below d k

instance (d k : Path) : Decidable (below d k) := by
  unfold below; infer_instance

instance (d k : Path) : Decidable (belowEq d k) := by
  unfold belowEq; infer_instance

/-- Component-wise sum of the recorded statistics of a list of entries. -/
def sumStats (l : DirStats) : Stat :=
  ⟨(l.map fun e => e.2.totalSize).sum, (l.map fun e => e.2.fileCount).sum⟩

/-- The specification-level cumulative value of directory `d`: the sum of the
direct statistics over `d` and every recorded directory below it. -/
def subStats (st : DirStats) (d : Path) : Stat :=
  sumStats (st.filter fun e => decide (belowEq d e.1))

/-- During the accumulation sweep, the direct statistics of `p` have reached
the ancestor `d` once every key strictly between `d` (exclusive) and `p`
(inclusive) has been processed. -/
def flowed (keys done : List Path) (d p : Path) : Prop :=
  ∀ k ∈ keys, below d k → belowEq k p → k ∈ done

instance (keys done : List Path) (d p : Path) : Decidable (flowed keys done d p) := by
  unfold flowed; infer_instance

/-- The value held by directory `d` after the entries of `done` have been
processed by the accumulation sweep. -/
def partStats (st : DirStats) (done : List Path) (d : Path) : Stat :=
  sumStats (st.filter fun e =>
    decide (belowEq d e.1 ∧ flowed (st.map Prod.fst) done d e.1))

/-- Insert into a list sorted by non-increasing separator count.  Modelled
from the spec: §4.3 step 2 orders the collected paths "by descending path
depth (number of separator segments), not by string length". -/
def insertByDepth (p : Path) : List Path → List Path
  | [] => [p]
  | q :: rest => if countSep p > countSep q then p :: q :: rest else q :: insertByDepth p rest

/-- Modelled from the spec: the ordering §4.3 prescribes, by descending
segment-count depth. -/
def sortByDepthDesc (ps : List Path) : List Path :=
  ps.foldr insertByDepth []

/-- Modelled from the spec: the bottom-up aggregation run in the order §4.3
prescribes (descending segment-count depth) instead of the program's
descending string length. -/
def aggregateStatsByDepth (st : DirStats) : DirStats :=
  (sortByDepthDesc (st.map Prod.fst)).foldl aggStep st

/-- A well-formed entry name: nonempty and free of separators. -/
def nameOk (n : Path) : Bool := !n.isEmpty && !n.contains sep

-- Well-formedness of a filesystem tree: every entry name is a real name.
mutual
def FSEntry.ok : FSEntry → Bool
  | .file n _ => nameOk n
  | .badFile n => nameOk n
  | .dir n es => nameOk n && es.ok
  | .badDir n => nameOk n
def FSList.ok : FSList → Bool
  | .nil => true
  | .cons e es => e.ok && es.ok
end

/-- An absolute path other than the filesystem root: starts with the
separator and has at least one further character. -/
def isAbsRoot : Path → Bool
  | [] => false
  | c :: t => c = sep && !t.isEmpty

/-- A directory-like root entry (`os.Lstat` reports a directory). -/
def isDirLike : FSEntry → Bool
  | .dir _ _ => true
  | .badDir _ => true
  | _ => false

/-- The §8 scenario tree under `/root`: `a` holding one 100-byte file and
`b/c` holding one 50-byte file. -/
def scenarioTree : FSEntry :=
  .dir "root".data (.cons (.dir "a".data (.cons (.file "f".data 100) .nil))
    (.cons (.dir "b".data (.cons (.dir "c".data (.cons (.file "g".data 50) .nil)) .nil)) .nil))

/-- A root with one direct 100-byte file and one 50-byte file inside a
subdirectory; used to probe the `maxDepth = 0` behaviour. -/
def depthTree : FSEntry :=
  .dir "r".data (.cons (.file "f".data 100)
    (.cons (.dir "s".data (.cons (.file "g".data 50) .nil)) .nil))

/-- A root holding a single 10-byte file; used to probe exclusion of files. -/
def exclTree : FSEntry :=
  .dir "r".data (.cons (.file "f".data 10) .nil)

/-- A root holding one 7-byte file inside an excluded subdirectory `s` and a
3-byte file outside it. -/
def exclDirTree : FSEntry :=
  .dir "r".data (.cons (.dir "s".data (.cons (.file "g".data 7) .nil))
    (.cons (.file "f".data 3) .nil))

/-- The structural invariant of the statistics collection built by a scan
from root `r`: keys are distinct, every key lies at or below `r`, and every
key other than `r` has its parent directory recorded as well, strictly
above it. -/
def goodKeys (r : Path) (ks : List Path) : Prop :=
  ks.Nodup ∧ ∀ k ∈ ks, belowEq r k ∧ (k = r ∨ (dirOf k ∈ ks ∧ below (dirOf k) k))

/-- The test the sweep applies to a candidate `b` against the last accepted
path `a`: `b` is accepted exactly when it is not a duplicate of `a`, not a
strict child of `a`, and not covered by the filesystem-root special case. -/
def sweepOk (a b : Path) : Prop :=
  b ≠ a ∧ ¬ (a ++ [sep]) <+: b ∧ ¬(a = [sep] ∧ a <+: b)

/-!
## Theorems

First a toolkit of small lemmas about the path order `below`, the
association-list operations, and the walk; then one theorem per analysed
property.
-/

theorem walkEntry_file (md : Int) (ex : List Path) (rd : Nat) (path n : Path) (sz : Int)
    (st : DirStats) (cnt : Nat) :
    walkEntry md ex rd path (.file n sz) st cnt =
      if md ≠ -1 ∧ (countSep path : Int) - (rd : Int) > md then (st, cnt)
      else (addFile (dirOf path) sz st, cnt + 1) := rfl

theorem walkEntry_badFile' (md : Int) (ex : List Path) (rd : Nat) (path n : Path)
    (st : DirStats) (cnt : Nat) :
    walkEntry md ex rd path (.badFile n) st cnt =
      if md ≠ -1 ∧ (countSep path : Int) - (rd : Int) > md then (st, cnt)
      else (st, cnt) := rfl

theorem walkEntry_dir (md : Int) (ex : List Path) (rd : Nat) (path n : Path) (es : FSList)
    (st : DirStats) (cnt : Nat) :
    walkEntry md ex rd path (.dir n es) st cnt =
      if ex.contains path then (st, cnt)
      else if md ≠ -1 ∧ (countSep path : Int) - (rd : Int) > md then (st, cnt)
      else walkList md ex rd path es (getDirStat path st) cnt := rfl

theorem walkEntry_badDir (md : Int) (ex : List Path) (rd : Nat) (path n : Path)
    (st : DirStats) (cnt : Nat) :
    walkEntry md ex rd path (.badDir n) st cnt =
      if ex.contains path then (st, cnt)
      else if md ≠ -1 ∧ (countSep path : Int) - (rd : Int) > md then (st, cnt)
      else (getDirStat path st, cnt) := rfl

theorem walkList_nil (md : Int) (ex : List Path) (rd : Nat) (d : Path)
    (st : DirStats) (cnt : Nat) :
    walkList md ex rd d .nil st cnt = (st, cnt) := rfl

theorem walkList_cons (md : Int) (ex : List Path) (rd : Nat) (d : Path) (e : FSEntry)
    (rest : FSList) (st : DirStats) (cnt : Nat) :
    walkList md ex rd d (.cons e rest) st cnt =
      walkList md ex rd d rest
        (walkEntry md ex rd (childPath d e.name) e st cnt).1
        (walkEntry md ex rd (childPath d e.name) e st cnt).2 := rfl

theorem below_ne {d k : Path} (h : below d k) : k ≠ d := h.2

theorem below_irrefl (d : Path) : ¬ below d d := fun h => h.2 rfl

theorem below_length_lt {d k : Path} (h : below d k) : d.length < k.length := by
  obtain ⟨⟨t, ht⟩, hne⟩ := h
  unfold dirSep at ht
  by_cases hd : d = [sep]
  · subst hd
    rw [if_pos rfl] at ht
    subst ht
    cases t with
    | nil => exact absurd rfl hne
    | cons c cs => simp
  · rw [if_neg hd] at ht
    subst ht
    simp

theorem below_asymm {d k : Path} (h : below d k) : ¬ below k d := by
  intro h'
  exact absurd (below_length_lt h') (by have := below_length_lt h; omega)

theorem countSep_cons_sep (n : Path) : countSep (sep :: n) = countSep n + 1 := by
  unfold countSep
  rw [List.countP_cons]
  simp

theorem countSep_append (a b : Path) : countSep (a ++ b) = countSep a + countSep b := by
  unfold countSep
  rw [List.countP_append]

theorem countSep_eq_zero {n : Path} (h : sep ∉ n) : countSep n = 0 := by
  unfold countSep
  rw [List.countP_eq_zero]
  intro a ha
  simp only [decide_eq_true_eq]
  intro he
  exact h (he ▸ ha)

theorem nameOk_sep_not_mem {n : Path} (h : nameOk n = true) : sep ∉ n := by
  unfold nameOk at h
  intro hm
  simp only [Bool.and_eq_true, Bool.not_eq_true'] at h
  have : n.contains sep = true := List.elem_eq_true_of_mem hm
  rw [h.2] at this
  exact Bool.false_ne_true this

theorem nameOk_ne_nil {n : Path} (h : nameOk n = true) : n ≠ [] := by
  unfold nameOk at h
  simp only [Bool.and_eq_true, Bool.not_eq_true'] at h
  intro he
  rw [he] at h
  simp at h

theorem countSep_childPath {d n : Path} (hd : d ≠ [sep]) (hn : sep ∉ n) :
    countSep (childPath d n) = countSep d + 1 := by
  unfold childPath
  rw [if_neg hd, countSep_append, countSep_cons_sep, countSep_eq_zero hn]

/-- C7 ingredients: a file whose metadata cannot be read changes nothing and
its siblings are still walked; an unreadable directory behaves exactly like
an empty one (recorded, not descended into); a root that fails to resolve is
skipped while every other root of the run is still scanned. -/
theorem walkEntry_badFile (md : Int) (ex : List Path) (rd : Nat) (p n : Path)
    (st : DirStats) (cnt : Nat) :
    walkEntry md ex rd p (.badFile n) st cnt = (st, cnt) := by
  simp [walkEntry]

/-- C7: any error reading a specific entry is non-fatal — an unreadable file
is skipped and its siblings and the rest of the tree are still traversed; an
unreadable directory is treated exactly like an empty directory; and a root
that fails to resolve contributes nothing while all the other roots of the
multi-root run still execute. -/
theorem claim7_errors_nonfatal :
    (∀ (md : Int) (ex : List Path) (rd : Nat) (d n : Path) (es : FSList)
        (st : DirStats) (cnt : Nat),
      walkList md ex rd d (.cons (.badFile n) es) st cnt = walkList md ex rd d es st cnt) ∧
    (∀ (md : Int) (ex : List Path) (rd : Nat) (p n : Path) (st : DirStats) (cnt : Nat),
      walkEntry md ex rd p (.badDir n) st cnt = walkEntry md ex rd p (.dir n .nil) st cnt) ∧
    (∀ (md : Int) (ex : List Path) (roots1 roots2 : List (Path × Option FSEntry)) (rbad : Path),
      runScan md ex (roots1 ++ (rbad, none) :: roots2) = runScan md ex (roots1 ++ roots2)) := by
  refine ⟨?_, ?_, ?_⟩
  · intro md ex rd d n es st cnt
    rw [walkList, walkEntry_badFile]
  · intro md ex rd p n st cnt
    simp [walkEntry, walkList]
  · intro md ex roots1 roots2 rbad
    unfold runScan
    rw [List.foldl_append, List.foldl_append, List.foldl_cons]

theorem tableRows_eq_take {n : Int} (l : DirStats) (h : 0 ≤ n) :
    tableRows n l = l.take n.toNat := by
  unfold tableRows
  split
  · rename_i hlt
    have h1 : l.length ≤ n.toNat := by omega
    have h2 : ((l.length : Int)).toNat = l.length := by omega
    show List.take ((l.length : Int)).toNat l = List.take n.toNat l
    rw [h2, List.take_length, List.take_of_length_le h1]
  · rfl

/-- C10: each of the two output views is truncated to the requested top-N
rows (for N ≥ 0), and with `topN = 0` both views are empty whatever the
collection holds. -/
theorem claim10_topn_truncation (topN : Int) (st : DirStats) (h : 0 ≤ topN) :
    tableRows topN (sortBySize st) = (sortBySize st).take topN.toNat ∧
    tableRows topN (sortByCount st) = (sortByCount st).take topN.toNat ∧
    (topN = 0 →
      tableRows topN (sortBySize st) = [] ∧ tableRows topN (sortByCount st) = []) := by
  refine ⟨tableRows_eq_take _ h, tableRows_eq_take _ h, ?_⟩
  intro h0
  subst h0
  rw [tableRows_eq_take _ le_rfl, tableRows_eq_take _ le_rfl]
  simp

/-- Witness for C10 at `topN = 0` on a one-entry collection. -/
theorem claim10_witness :
    tableRows 0 (sortBySize [("/a".data, ⟨5, 2⟩)]) = [] ∧
    tableRows 0 (sortByCount [("/a".data, ⟨5, 2⟩)]) = [] :=
  (claim10_topn_truncation 0 [("/a".data, ⟨5, 2⟩)] (by decide)).2.2 rfl

theorem walkList_depth0 (ex : List Path) (r : Path) (hr : r ≠ [sep]) :
    ∀ (es : FSList), es.ok = true → ∀ (st : DirStats) (cnt : Nat),
      walkList 0 ex (countSep r) r es st cnt = (st, cnt)
  | .nil, _, _, _ => rfl
  | .cons e rest, h, st, cnt => by
      simp only [FSList.ok, Bool.and_eq_true] at h
      have hname : nameOk e.name = true := by
        cases e <;> simp only [FSEntry.ok, FSEntry.name, Bool.and_eq_true] at h ⊢ <;> tauto
      have hdep : countSep (childPath r e.name) = countSep r + 1 :=
        countSep_childPath hr (nameOk_sep_not_mem hname)
      have hc : (0 : Int) ≠ -1 ∧
          (countSep (childPath r e.name) : Int) - (countSep r : Int) > 0 := by
        refine ⟨by norm_num, ?_⟩
        rw [hdep]
        push_cast
        omega
      have hskip : walkEntry 0 ex (countSep r) (childPath r e.name) e st cnt = (st, cnt) := by
        cases e with
        | file n sz => rw [walkEntry_file, if_pos hc]
        | badFile n => rw [walkEntry_badFile']; exact if_pos hc
        | dir n es' =>
            rw [walkEntry_dir]
            by_cases hx : ex.contains (childPath r (FSEntry.dir n es').name) = true
            · rw [if_pos hx]
            · rw [if_neg hx, if_pos hc]
        | badDir n =>
            rw [walkEntry_badDir]
            by_cases hx : ex.contains (childPath r (FSEntry.badDir n).name) = true
            · rw [if_pos hx]
            · rw [if_neg hx, if_pos hc]
      rw [walkList_cons, hskip]
      exact walkList_depth0 ex r hr rest h.2 st cnt

/-- C3 (amended): with `maxDepth = 0` nothing at all is recorded below a
(non-filesystem-root) search root — not even the root's own direct files,
whose computed depth 1 already exceeds the limit; only the root directory
itself is recorded, with zero direct totals, and the returned file count is
zero. -/
theorem claim3_maxdepth0 (ex : List Path) (r nm : Path) (es : FSList) (st : DirStats)
    (hr : isAbsRoot r = true) (hok : es.ok = true) (hex : ex.contains r = false) :
    scanDirectory 0 ex r (.dir nm es) st = (getDirStat r st, 0) := by
  have hr' : r ≠ [sep] := by
    intro he
    subst he
    simp [isAbsRoot] at hr
  unfold scanDirectory walkEntry
  rw [hex]
  simp only [Bool.false_eq_true, if_false]
  rw [if_neg (by omega)]
  exact walkList_depth0 ex r hr' es hok _ _

/-- Counterexample to C3 as stated: for the root `/r` holding one direct
100-byte file (and a 50-byte file inside subdirectory `s`), a scan with
`maxDepth = 0` records nothing for `/r` — the root's own direct file is
*not* counted, contradicting the claimed `directSize`/`directFileCount`
contribution. -/
theorem claim3_counterexample :
    lookupStat (scanDirectory 0 defaultExclude "/r".data depthTree []).1 "/r".data
      = some ⟨0, 0⟩ ∧
    (scanDirectory 0 defaultExclude "/r".data depthTree []).2 = 0 ∧
    ¬ lookupStat (scanDirectory 0 defaultExclude "/r".data depthTree []).1 "/r".data
      = some ⟨100, 1⟩ := by
  refine ⟨by decide, by decide, by decide⟩

/-- Witness for the amended C3: the concrete `maxDepth = 0` scan of
`depthTree` produces exactly the root entry of `getDirStat` and no files. -/
theorem claim3_witness :
    scanDirectory 0 defaultExclude "/r".data depthTree [] = (getDirStat "/r".data [], 0) :=
  claim3_maxdepth0 defaultExclude "/r".data "r".data
    (.cons (.file "f".data 100) (.cons (.dir "s".data (.cons (.file "g".data 50) .nil)) .nil))
    [] (by decide) (by decide) (by decide)

/-- C5 (amended): only *directory* entries are checked against the exclusion
set.  An excluded directory is pruned with its whole subtree and leaves the
collection and the file count exactly as they were, so it contributes zero
to every ancestor's totals; an excluded search root likewise records
nothing.  (Files are never tested against the exclusion set — see the
counterexample.) -/
theorem claim5_exclusion_pruning :
    (∀ (md : Int) (ex : List Path) (rd : Nat) (d n : Path) (sub : FSList) (es : FSList)
        (st : DirStats) (cnt : Nat), ex.contains (childPath d n) = true →
      walkList md ex rd d (.cons (.dir n sub) es) st cnt = walkList md ex rd d es st cnt) ∧
    (∀ (md : Int) (ex : List Path) (r : Path) (t : FSEntry) (st : DirStats),
      isDirLike t = true → ex.contains r = true →
      scanDirectory md ex r t st = (st, 0)) := by
  constructor
  · intro md ex rd d n sub es st cnt h
    rw [walkList_cons]
    have he : walkEntry md ex rd (childPath d (FSEntry.name (.dir n sub))) (.dir n sub) st cnt
        = (st, cnt) := by
      rw [walkEntry_dir, if_pos (by simp only [FSEntry.name]; exact h)]
    rw [he]
  · intro md ex r t st hdl hex
    cases t with
    | file n sz => simp [isDirLike] at hdl
    | badFile n => simp [isDirLike] at hdl
    | dir n es =>
        unfold scanDirectory
        rw [walkEntry_dir, if_pos hex]
    | badDir n =>
        unfold scanDirectory
        rw [walkEntry_badDir, if_pos hex]

/-- Counterexample to C5 as stated: the *file* `/r/f` is on the exclusion
list, yet it is not pruned — its 10 bytes are recorded against the search
root `/r`, which therefore does not receive zero. -/
theorem claim5_counterexample :
    (scanDirectory 1000000 ["/r/f".data] "/r".data exclTree []).1
      = [("/r".data, ⟨10, 1⟩)] ∧
    ¬ lookupStat (scanDirectory 1000000 ["/r/f".data] "/r".data exclTree []).1 "/r".data
      = some ⟨0, 0⟩ := by
  refine ⟨by decide, by decide⟩

/-- Witness for the amended C5: pruning the excluded directory `/r/s` leaves
the walk of its siblings unchanged, and scanning an excluded root records
nothing. -/
theorem claim5_witness :
    walkList 1000000 ["/r/s".data] 1 "/r".data
        (.cons (.dir "s".data (.cons (.file "g".data 7) .nil)) (.cons (.file "f".data 3) .nil))
        [] 0
      = walkList 1000000 ["/r/s".data] 1 "/r".data (.cons (.file "f".data 3) .nil) [] 0 ∧
    scanDirectory 5 ["/x".data] "/x".data (.dir "x".data .nil) [] = ([], 0) :=
  ⟨claim5_exclusion_pruning.1 1000000 ["/r/s".data] 1 "/r".data "s".data
      (.cons (.file "g".data 7) .nil) (.cons (.file "f".data 3) .nil) [] 0 (by decide),
    claim5_exclusion_pruning.2 5 ["/x".data] "/x".data (.dir "x".data .nil) [] (by decide)
      (by decide)⟩

theorem insertByLen_perm (p : Path) : ∀ l, (insertByLen p l).Perm (p :: l)
  | [] => .refl _
  | q :: rest => by
      unfold insertByLen
      split
      · exact .refl _
      · exact ((insertByLen_perm p rest).cons q).trans (List.Perm.swap p q rest)

theorem sortByLenDesc_perm (ps : List Path) : (sortByLenDesc ps).Perm ps := by
  unfold sortByLenDesc
  induction ps with
  | nil => exact .refl _
  | cons p rest ih =>
      rw [List.foldr_cons]
      exact (insertByLen_perm p _).trans (ih.cons p)

theorem pairwise_insertByLen {p : Path} {l : List Path}
    (h : l.Pairwise (fun a b => b.length ≤ a.length)) :
    (insertByLen p l).Pairwise (fun a b => b.length ≤ a.length) := by
  induction l with
  | nil => simp [insertByLen]
  | cons q rest ih =>
      rw [List.pairwise_cons] at h
      unfold insertByLen
      split
      · rename_i hgt
        refine List.pairwise_cons.mpr ⟨?_, List.pairwise_cons.mpr h⟩
        intro b hb
        rcases List.mem_cons.mp hb with rfl | hb'
        · omega
        · have := h.1 b hb'
          omega
      · rename_i hle
        refine List.pairwise_cons.mpr ⟨?_, ih h.2⟩
        intro b hb
        rcases List.mem_cons.mp ((insertByLen_perm p rest).mem_iff.mp hb) with rfl | hb'
        · omega
        · exact h.1 b hb'

theorem sortByLenDesc_sorted (ps : List Path) :
    (sortByLenDesc ps).Pairwise (fun a b => b.length ≤ a.length) := by
  unfold sortByLenDesc
  induction ps with
  | nil => simp
  | cons p rest ih =>
      rw [List.foldr_cons]
      exact pairwise_insertByLen ih

/-- C2 (amended): the aggregator orders the collected paths by descending
*string length* — the output of its sort is a permutation sorted by
non-increasing length.  Because every ancestor's path is strictly shorter
than each of its descendants' paths, this still processes every path
strictly before any of its ancestors: whenever `b` lies strictly below `a`,
`b` appears strictly before `a` in the processing order. -/
theorem claim2_sorts_by_length (ps : List Path) :
    (sortByLenDesc ps).Perm ps ∧
    (sortByLenDesc ps).Pairwise (fun a b => b.length ≤ a.length) ∧
    (∀ a b l1 l2, below a b → b ∈ ps → sortByLenDesc ps = l1 ++ a :: l2 → b ∈ l1) := by
  refine ⟨sortByLenDesc_perm ps, sortByLenDesc_sorted ps, ?_⟩
  intro a b l1 l2 hb hbps heq
  have hmem : b ∈ l1 ++ a :: l2 := heq ▸ (sortByLenDesc_perm ps).mem_iff.mpr hbps
  rcases List.mem_append.mp hmem with h1 | h2
  · exact h1
  · rcases List.mem_cons.mp h2 with rfl | h3
    · exact absurd hb (below_irrefl _)
    · have hp : (l1 ++ a :: l2).Pairwise (fun a b => b.length ≤ a.length) :=
        heq ▸ sortByLenDesc_sorted ps
      have h4 := (List.pairwise_cons.mp (List.pairwise_append.mp hp).2.1).1 b h3
      have h5 := below_length_lt hb
      omega

/-- Counterexample to C2 as stated: in a real run over the two roots `/aa`
(containing directory `b`) and `/abcdefg`, the implementation's sort puts
the shallower path `/abcdefg` (depth 1) strictly before the deeper path
`/aa/b` (depth 2), because it compares string lengths — so deeper paths are
*not* processed strictly before shallower ones. -/
theorem claim2_counterexample :
    sortByLenDesc ((runScan 1000000 defaultExclude
        [("/aa".data, some (.dir "aa".data (.cons (.dir "b".data .nil) .nil))),
         ("/abcdefg".data, some (.dir "abcdefg".data .nil))]).1.map Prod.fst)
      = ["/abcdefg".data, "/aa/b".data, "/aa".data] ∧
    countSep "/abcdefg".data < countSep "/aa/b".data := by
  refine ⟨by decide, by decide⟩

/-- C4: the normalizer's output at the failing input `["/a", "/a-x", "/a/b"]`
keeps both `/a` and its strict descendant `/a/b` (because `/a/b` is compared
only against the intervening accepted path `/a-x`), violating the documented
invariant that no element of the normalized root set is a strict
prefix-path of another. -/
theorem claim4_normalizer_violation :
    removeSubdirectories ["/a".data, "/a-x".data, "/a/b".data]
      = ["/a".data, "/a-x".data, "/a/b".data] ∧
    "/a".data ∈ removeSubdirectories ["/a".data, "/a-x".data, "/a/b".data] ∧
    "/a/b".data ∈ removeSubdirectories ["/a".data, "/a-x".data, "/a/b".data] ∧
    below "/a".data "/a/b".data := by
  refine ⟨by decide, by decide, by decide, by decide⟩

/-- Witness for the amended C2 at a concrete key set: `/aa/b` precedes its
ancestor `/aa` in the implementation's processing order. -/
theorem claim2_witness :
    "/aa/b".data ∈ ["/abcdefg".data, "/aa/b".data] :=
  (claim2_sorts_by_length ["/aa".data, "/aa/b".data, "/abcdefg".data]).2.2
    "/aa".data "/aa/b".data ["/abcdefg".data, "/aa/b".data] [] (by decide) (by decide)
    (by decide)

theorem lexLe_total : ∀ a b : Path, lexLe a b = true ∨ lexLe b a = true
  | [], _ => by
      left
      rfl
  | _ :: _, [] => by
      right
      rfl
  | a :: as, b :: bs => by
      unfold lexLe
      by_cases hab : a = b
      · subst hab
        rw [if_pos rfl, if_pos rfl]
        exact lexLe_total as bs
      · rw [if_neg hab, if_neg (Ne.symm hab)]
        rcases lt_or_gt_of_ne hab with h | h
        · exact Or.inl (decide_eq_true h)
        · exact Or.inr (decide_eq_true h)

theorem lexLe_trans : ∀ {a b c : Path},
    lexLe a b = true → lexLe b c = true → lexLe a c = true
  | [], _, _, _, _ => rfl
  | _ :: _, [], _, h, _ => by simp [lexLe] at h
  | _ :: _, _ :: _, [], _, h => by simp [lexLe] at h
  | a :: as, b :: bs, c :: cs, h1, h2 => by
      unfold lexLe at h1 h2 ⊢
      by_cases hab : a = b
      · subst hab
        rw [if_pos rfl] at h1
        by_cases hbc : a = c
        · subst hbc
          rw [if_pos rfl] at h2 ⊢
          exact lexLe_trans h1 h2
        · rw [if_neg hbc] at h2 ⊢
          exact h2
      · rw [if_neg hab] at h1
        have hab' : a < b := of_decide_eq_true h1
        by_cases hbc : b = c
        · subst hbc
          rw [if_neg hab]
          exact h1
        · have hbc' : b < c := of_decide_eq_true (by rwa [if_neg hbc] at h2)
          have hac : a < c := lt_trans hab' hbc'
          rw [if_neg (ne_of_lt hac)]
          exact decide_eq_true hac

theorem insertLex_perm (p : Path) : ∀ l, (insertLex p l).Perm (p :: l)
  | [] => .refl _
  | q :: rest => by
      unfold insertLex
      split
      · exact .refl _
      · exact ((insertLex_perm p rest).cons q).trans (List.Perm.swap p q rest)

theorem sortLex_perm (ps : List Path) : (sortLex ps).Perm ps := by
  unfold sortLex
  induction ps with
  | nil => exact .refl _
  | cons p rest ih =>
      rw [List.foldr_cons]
      exact (insertLex_perm p _).trans (ih.cons p)

theorem pairwise_insertLex {p : Path} {l : List Path}
    (h : l.Pairwise (fun a b => lexLe a b = true)) :
    (insertLex p l).Pairwise (fun a b => lexLe a b = true) := by
  induction l with
  | nil => simp [insertLex]
  | cons q rest ih =>
      rw [List.pairwise_cons] at h
      unfold insertLex
      split
      · rename_i hle
        refine List.pairwise_cons.mpr ⟨?_, List.pairwise_cons.mpr h⟩
        intro b hb
        rcases List.mem_cons.mp hb with rfl | hb'
        · exact hle
        · exact lexLe_trans hle (h.1 b hb')
      · rename_i hnle
        have hqp : lexLe q p = true := (lexLe_total p q).resolve_left hnle
        refine List.pairwise_cons.mpr ⟨?_, ih h.2⟩
        intro b hb
        rcases List.mem_cons.mp ((insertLex_perm p rest).mem_iff.mp hb) with rfl | hb'
        · exact hqp
        · exact h.1 b hb'

theorem sortLex_sorted (ps : List Path) :
    (sortLex ps).Pairwise (fun a b => lexLe a b = true) := by
  unfold sortLex
  induction ps with
  | nil => simp
  | cons p rest ih =>
      rw [List.foldr_cons]
      exact pairwise_insertLex ih

theorem sortLex_of_pairwise : ∀ {l : List Path},
    l.Pairwise (fun a b => lexLe a b = true) → sortLex l = l
  | [], _ => rfl
  | x :: xs, h => by
      rw [List.pairwise_cons] at h
      show insertLex x (sortLex xs) = x :: xs
      rw [sortLex_of_pairwise h.2]
      cases xs with
      | nil => rfl
      | cons y ys =>
          unfold insertLex
          rw [if_pos (h.1 y (List.mem_cons_self y ys))]

theorem sweep_sublist : ∀ (l acc : List Path), ∃ s, sweep acc l = acc ++ s ∧ s.Sublist l
  | [], acc => ⟨[], by simp [sweep]⟩
  | p :: rest, acc => by
      unfold sweep
      split
      · obtain ⟨s, hs, hsub⟩ := sweep_sublist rest (acc ++ [p])
        exact ⟨p :: s, by rw [hs]; simp, hsub.cons₂ p⟩
      · rename_i last hacc
        by_cases h1 : p = last
        · rw [if_pos h1]
          obtain ⟨s, hs, hsub⟩ := sweep_sublist rest acc
          exact ⟨s, hs, hsub.cons p⟩
        · rw [if_neg h1]
          by_cases h2 : hasPrefix p (last ++ [sep]) = true
          · rw [if_pos h2]
            obtain ⟨s, hs, hsub⟩ := sweep_sublist rest acc
            exact ⟨s, hs, hsub.cons p⟩
          · rw [if_neg h2]
            by_cases h3 : last = [sep] ∧ hasPrefix p last = true
            · rw [if_pos h3]
              obtain ⟨s, hs, hsub⟩ := sweep_sublist rest acc
              exact ⟨s, hs, hsub.cons p⟩
            · rw [if_neg h3]
              obtain ⟨s, hs, hsub⟩ := sweep_sublist rest (acc ++ [p])
              exact ⟨p :: s, by rw [hs]; simp, hsub.cons₂ p⟩

theorem sweep_chain : ∀ (l acc : List Path),
    acc.Chain' sweepOk → (sweep acc l).Chain' sweepOk
  | [], _, h => h
  | p :: rest, acc, h => by
      unfold sweep
      split
      · rename_i hacc
        have ha : acc = [] := List.getLast?_eq_none_iff.mp hacc
        subst ha
        exact sweep_chain rest [p] (List.chain'_singleton p)
      · rename_i last hacc
        by_cases h1 : p = last
        · rw [if_pos h1]
          exact sweep_chain rest acc h
        · rw [if_neg h1]
          by_cases h2 : hasPrefix p (last ++ [sep]) = true
          · rw [if_pos h2]
            exact sweep_chain rest acc h
          · rw [if_neg h2]
            by_cases h3 : last = [sep] ∧ hasPrefix p last = true
            · rw [if_pos h3]
              exact sweep_chain rest acc h
            · rw [if_neg h3]
              refine sweep_chain rest (acc ++ [p]) ?_
              rw [List.chain'_append]
              refine ⟨h, List.chain'_singleton p, ?_⟩
              intro x hx y hy
              rw [hacc] at hx
              simp only [Option.mem_def, Option.some.injEq] at hx
              simp only [List.head?_cons, Option.mem_def, Option.some.injEq] at hy
              subst hx
              subst hy
              refine ⟨h1, ?_, ?_⟩
              · intro hpre
                exact h2 (by simpa [hasPrefix] using hpre)
              · rintro ⟨hr, hpre⟩
                exact h3 ⟨hr, by simpa [hasPrefix] using hpre⟩

theorem sweep_id : ∀ (l acc : List Path),
    (acc ++ l).Chain' sweepOk → sweep acc l = acc ++ l
  | [], acc, _ => by simp [sweep]
  | p :: rest, acc, h => by
      unfold sweep
      split
      · rename_i hacc
        have ha : acc = [] := List.getLast?_eq_none_iff.mp hacc
        subst ha
        have := sweep_id rest [p] (by simpa using h)
        simpa using this
      · rename_i last hacc
        have hR : sweepOk last p := by
          obtain ⟨-, -, hmid⟩ := List.chain'_append.mp h
          exact hmid last (by rw [hacc]; rfl) p rfl
        obtain ⟨hne, hpre, hroot⟩ := hR
        rw [if_neg hne]
        rw [if_neg (by simp only [hasPrefix, decide_eq_true_eq]; exact hpre)]
        rw [if_neg (by
          rintro ⟨hr, hp⟩
          simp only [hasPrefix, decide_eq_true_eq] at hp
          exact hroot ⟨hr, hp⟩)]
        have := sweep_id rest (acc ++ [p]) (by simpa using h)
        simpa using this

/-- C8: root normalization is idempotent — applying `removeSubdirectories`
to its own output returns that output unchanged, for every input list. -/
theorem claim8_normalize_idempotent (ps : List Path) :
    removeSubdirectories (removeSubdirectories ps) = removeSubdirectories ps := by
  by_cases hps : ps.isEmpty = true
  · have h1 : removeSubdirectories ps = ps := by
      unfold removeSubdirectories
      rw [if_pos hps]
    rw [h1, h1]
  · have h1 : removeSubdirectories ps = sweep [] (sortLex ps) := by
      unfold removeSubdirectories
      rw [if_neg hps]
    rw [h1]
    by_cases hout : (sweep [] (sortLex ps)).isEmpty = true
    · unfold removeSubdirectories
      rw [if_pos hout]
    · obtain ⟨s, hs, hsub⟩ := sweep_sublist (sortLex ps) []
      have hpw : (sweep [] (sortLex ps)).Pairwise (fun a b => lexLe a b = true) := by
        rw [hs]
        simpa using (sortLex_sorted ps).sublist hsub
      have hchain : (sweep [] (sortLex ps)).Chain' sweepOk :=
        sweep_chain (sortLex ps) [] List.chain'_nil
      unfold removeSubdirectories
      rw [if_neg hout, sortLex_of_pairwise hpw]
      exact sweep_id (sweep [] (sortLex ps)) [] (by simpa using hchain)


/-! ### Path toolkit: last-separator decomposition and the ancestor order -/

theorem childPath_root (n : Path) : childPath [sep] n = sep :: n := by
  unfold childPath
  rw [if_pos rfl]

theorem childPath_eq {d : Path} (n : Path) (hd : d ≠ [sep]) :
    childPath d n = d ++ sep :: n := by
  unfold childPath
  rw [if_neg hd]

theorem dirSep_root : dirSep [sep] = [sep] := by
  unfold dirSep
  rw [if_pos rfl]

theorem dirSep_eq {d : Path} (hd : d ≠ [sep]) : dirSep d = d ++ [sep] := by
  unfold dirSep
  rw [if_neg hd]

theorem dirOf_append_sep (u v : Path) (hv : sep ∉ v) :
    dirOf (u ++ sep :: v) = if u = [] then [sep] else u := by
  unfold dirOf
  have hrev : (u ++ sep :: v).reverse = v.reverse ++ sep :: u.reverse := by
    simp
  rw [hrev]
  have hall : ∀ c ∈ v.reverse, (fun c => decide (c ≠ sep)) c = true := by
    intro c hc
    simp only [decide_eq_true_eq]
    intro he
    exact hv (he ▸ List.mem_reverse.mp hc)
  rw [List.dropWhile_append_of_pos hall]
  have hstep : List.dropWhile (fun c => decide (c ≠ sep)) (sep :: u.reverse)
      = sep :: u.reverse := by
    rw [List.dropWhile_cons]
    simp
  rw [hstep]
  show (if u.reverse = [] then [sep] else u.reverse.reverse) = if u = [] then [sep] else u
  by_cases hu : u = []
  · subst hu
    simp
  · rw [if_neg (by simpa using hu), if_neg hu, List.reverse_reverse]

theorem exists_last_sep {q : Path} (h : sep ∈ q) :
    ∃ u v, q = u ++ sep :: v ∧ sep ∉ v := by
  induction q using List.reverseRecOn with
  | nil => cases h
  | append_singleton xs x ih =>
      by_cases hx : x = sep
      · subst hx
        exact ⟨xs, [], by simp, by simp⟩
      · have hxs : sep ∈ xs := by
          rcases List.mem_append.mp h with h1 | h2
          · exact h1
          · simp only [List.mem_singleton] at h2
            exact absurd h2.symm hx
        obtain ⟨u, v, hq, hv⟩ := ih hxs
        refine ⟨u, v ++ [x], by rw [hq]; simp, ?_⟩
        intro hm
        rcases List.mem_append.mp hm with h1 | h2
        · exact hv h1
        · simp only [List.mem_singleton] at h2
          exact hx h2.symm

theorem dirOf_childPath {d n : Path} (hd : d ≠ []) (hn : sep ∉ n) :
    dirOf (childPath d n) = d := by
  by_cases hds : d = [sep]
  · subst hds
    rw [childPath_root]
    have h0 : sep :: n = [] ++ sep :: n := rfl
    rw [h0, dirOf_append_sep [] n hn, if_pos rfl]
  · rw [childPath_eq n hds, dirOf_append_sep d n hn, if_neg hd]

theorem sep_mem_dirSep (d : Path) : sep ∈ dirSep d := by
  by_cases hd : d = [sep]
  · subst hd
    rw [dirSep_root]
    exact List.mem_singleton.mpr rfl
  · rw [dirSep_eq hd]
    exact List.mem_append.mpr (Or.inr (List.mem_singleton.mpr rfl))

theorem prefix_dirSep (d : Path) : d <+: dirSep d := by
  by_cases hd : d = [sep]
  · subst hd
    rw [dirSep_root]
  · rw [dirSep_eq hd]
    exact List.prefix_append d [sep]

theorem below_childPath {d n : Path} (hn : n ≠ []) : below d (childPath d n) := by
  by_cases hd : d = [sep]
  · subst hd
    rw [childPath_root]
    refine ⟨?_, ?_⟩
    · rw [dirSep_root]
      exact ⟨n, rfl⟩
    · intro he
      simp only [List.cons.injEq] at he
      exact hn he.2
  · rw [childPath_eq n hd]
    refine ⟨?_, ?_⟩
    · rw [dirSep_eq hd]
      exact ⟨n, by simp⟩
    · intro he
      have hl := congrArg List.length he
      simp at hl

theorem below_trans_of_belowEq {g q p : Path} (h1 : below g q) (h2 : belowEq q p) :
    below g p := by
  rcases h2 with rfl | h2
  · exact h1
  · refine ⟨h1.1.trans ((prefix_dirSep q).trans h2.1), ?_⟩
    intro he
    have l1 := below_length_lt h1
    have l2 := below_length_lt h2
    subst he
    omega

theorem below_trans {a b c : Path} (h1 : below a b) (h2 : below b c) : below a c :=
  below_trans_of_belowEq h1 (Or.inr h2)

theorem belowEq_trans {a b c : Path} (h1 : belowEq a b) (h2 : belowEq b c) :
    belowEq a c := by
  rcases h1 with rfl | h1
  · exact h2
  · exact Or.inr (below_trans_of_belowEq h1 h2)

theorem belowEq_length_le {d k : Path} (h : belowEq d k) : d.length ≤ k.length := by
  rcases h with rfl | h
  · exact le_rfl
  · exact le_of_lt (below_length_lt h)

theorem belowEq_antisymm {a b : Path} (h1 : belowEq a b) (h2 : belowEq b a) : a = b := by
  rcases h1 with rfl | h1
  · rfl
  · rcases h2 with rfl | h2
    · rfl
    · exact absurd (below_trans h1 h2) (below_irrefl a)


theorem dirSep_eq_append (x : Path) : ∃ y, dirSep x = y ++ [sep] := by
  by_cases hx : x = [sep]
  · subst hx
    exact ⟨[], by simp [dirSep_root]⟩
  · exact ⟨x, dirSep_eq hx⟩

theorem belowEq_or_of_dirSep_le {x y : Path} (h : dirSep x <+: dirSep y) :
    belowEq x y ∨ belowEq y x := by
  by_cases hy : y = [sep]
  · subst hy
    rw [dirSep_root] at h
    by_cases hx : x = [sep]
    · exact Or.inl (Or.inl hx.symm)
    · rw [dirSep_eq hx] at h
      have hx0 : x = [] := by
        have := h.length_le
        simp at this
        exact this
      subst hx0
      refine Or.inl (Or.inr ⟨?_, by simp⟩)
      rw [dirSep_eq hx]
      simp
  · rw [dirSep_eq hy] at h
    by_cases hx : x = [sep]
    · subst hx
      rw [dirSep_root] at h
      by_cases hy0 : y = []
      · subst hy0
        refine Or.inr (Or.inr ⟨?_, by simp⟩)
        rw [dirSep_eq (by simp : ([] : Path) ≠ [sep])]
        simp
      · obtain ⟨c, y', rfl⟩ := List.exists_cons_of_ne_nil hy0
        obtain ⟨t, ht⟩ := h
        simp only [List.singleton_append, List.cons_append, List.cons.injEq] at ht
        refine Or.inl (Or.inr ⟨?_, hy⟩)
        rw [dirSep_root, ht.1]
        exact ⟨y', rfl⟩
    · rw [dirSep_eq hx] at h
      have hlen : x.length + 1 ≤ y.length + 1 := by simpa using h.length_le
      by_cases hxy : x.length = y.length
      · have heq : x ++ [sep] = y ++ [sep] := h.eq_of_length (by simp [hxy])
        exact Or.inl (Or.inl (List.append_cancel_right heq).symm)
      · have hxy' : x.length < y.length := by omega
        have hpre : x ++ [sep] <+: y := by
          rcases List.prefix_or_prefix_of_prefix h (List.prefix_append y [sep]) with h2 | h2
          · exact h2
          · have hl2 := h2.length_le
            simp only [List.length_append, List.length_cons, List.length_nil] at hl2
            have : y = x ++ [sep] := h2.eq_of_length (by simp; omega)
            rw [this]
        refine Or.inl (Or.inr ⟨?_, ?_⟩)
        · rw [dirSep_eq hx]
          exact hpre
        · intro he
          subst he
          omega

theorem ancestors_total {a b p : Path} (ha : belowEq a p) (hb : belowEq b p) :
    belowEq a b ∨ belowEq b a := by
  rcases ha with rfl | ha
  · exact Or.inr hb
  · rcases hb with rfl | hb
    · exact Or.inl (Or.inr ha)
    · rcases List.prefix_or_prefix_of_prefix ha.1 hb.1 with h | h
      · exact belowEq_or_of_dirSep_le h
      · exact (belowEq_or_of_dirSep_le h).symm

theorem belowEq_of_dirSep_prefix_append {x u : Path} (hu : u ≠ [])
    (h : dirSep x <+: u ++ [sep]) : belowEq x u := by
  by_cases hx : x = [sep]
  · subst hx
    rw [dirSep_root] at h
    obtain ⟨c, u', rfl⟩ := List.exists_cons_of_ne_nil hu
    obtain ⟨t, ht⟩ := h
    simp only [List.singleton_append, List.cons_append, List.cons.injEq] at ht
    by_cases hu1 : c :: u' = [sep]
    · exact Or.inl hu1
    · refine Or.inr ⟨?_, hu1⟩
      rw [dirSep_root, ht.1]
      exact ⟨u', rfl⟩
  · rw [dirSep_eq hx] at h
    have hlen : x.length + 1 ≤ u.length + 1 := by simpa using h.length_le
    by_cases hxy : x.length = u.length
    · have heq : x ++ [sep] = u ++ [sep] := h.eq_of_length (by simp [hxy])
      exact Or.inl (List.append_cancel_right heq).symm
    · have hpre : x ++ [sep] <+: u := by
        rcases List.prefix_or_prefix_of_prefix h (List.prefix_append u [sep]) with h2 | h2
        · exact h2
        · have hl2 := h2.length_le
          simp only [List.length_append, List.length_cons, List.length_nil] at hl2
          have : u = x ++ [sep] := h2.eq_of_length (by simp; omega)
          rw [this]
      refine Or.inr ⟨?_, ?_⟩
      · rw [dirSep_eq hx]
        exact hpre
      · intro he
        subst he
        omega

theorem belowEq_dirOf_of_below {x q : Path} (h : below x q) : belowEq x (dirOf q) := by
  have hsepq : sep ∈ q := h.1.subset (sep_mem_dirSep x)
  obtain ⟨u, v, rfl, hv⟩ := exists_last_sep hsepq
  rw [dirOf_append_sep u v hv]
  by_cases hu : u = []
  · rw [if_pos hu]
    subst hu
    by_cases hx : x = [sep]
    · exact Or.inl hx.symm
    · by_cases hx0 : x = []
      · subst hx0
        refine Or.inr ⟨?_, by simp⟩
        rw [dirSep_eq (by simp : ([] : Path) ≠ [sep])]
        simp
      · exfalso
        have h1 : x ++ [sep] <+: sep :: v := by
          rw [← dirSep_eq hx]
          simpa using h.1
        obtain ⟨c, x', rfl⟩ := List.exists_cons_of_ne_nil hx0
        obtain ⟨t, ht⟩ := h1
        simp only [List.cons_append, List.append_assoc, List.cons.injEq] at ht
        have hmem : sep ∈ v := by
          rw [← ht.2]
          simp
        exact hv hmem
  · rw [if_neg hu]
    have hq' : dirSep x <+: (u ++ [sep]) ++ v := by
      simpa [List.append_assoc] using h.1
    have husep : (u ++ [sep]) <+: (u ++ [sep]) ++ v := List.prefix_append _ v
    by_cases hlen : (dirSep x).length ≤ u.length + 1
    · have h2 : dirSep x <+: u ++ [sep] :=
        List.prefix_of_prefix_length_le hq' husep (by simpa using hlen)
      exact belowEq_of_dirSep_prefix_append hu h2
    · exfalso
      have h2 : u ++ [sep] <+: dirSep x :=
        List.prefix_of_prefix_length_le husep hq' (by simp; omega)
      obtain ⟨w, hw⟩ := h2
      have hwne : w ≠ [] := by
        intro h0
        subst h0
        have := congrArg List.length hw
        simp at this
        omega
      have hwv : w <+: v := by
        refine (List.prefix_append_right_inj (u ++ [sep])).mp ?_
        rw [hw]
        exact hq'
      obtain ⟨y, hy⟩ := dirSep_eq_append x
      have hlast : w.getLast? = some sep := by
        have := congrArg List.getLast? (hw.trans hy)
        rw [List.getLast?_append, List.getLast?_concat] at this
        cases hw' : w.getLast? with
        | none => exact absurd (List.getLast?_eq_none_iff.mp hw') hwne
        | some a =>
            rw [hw'] at this
            simpa using this
      exact hv (hwv.subset (List.mem_of_getLast?_eq_some hlast))

/-! ### Association-list and summation lemmas -/

theorem lookupStat_nil (p : Path) : lookupStat [] p = none := rfl

theorem lookupStat_cons (q : Path) (s : Stat) (rest : DirStats) (p : Path) :
    lookupStat ((q, s) :: rest) p = if q = p then some s else lookupStat rest p := rfl

theorem updateStat_nil (p : Path) (f : Stat → Stat) :
    updateStat [] p f = [(p, f ⟨0, 0⟩)] := rfl

theorem updateStat_cons (q : Path) (s : Stat) (rest : DirStats) (p : Path) (f : Stat → Stat) :
    updateStat ((q, s) :: rest) p f =
      if q = p then (q, f s) :: rest else (q, s) :: updateStat rest p f := rfl

theorem lookupStat_isSome_iff : ∀ (st : DirStats) (p : Path),
    (lookupStat st p).isSome = true ↔ p ∈ st.map Prod.fst
  | [], p => by
      rw [lookupStat_nil]
      exact iff_of_false (fun h => nomatch h) (fun h => nomatch h)
  | (q, s) :: rest, p => by
      rw [lookupStat_cons]
      by_cases h : q = p
      · subst h
        simp
      · rw [if_neg h]
        simp only [List.map_cons, List.mem_cons]
        rw [lookupStat_isSome_iff rest p]
        constructor
        · exact Or.inr
        · rintro (rfl | hm)
          · exact absurd rfl h
          · exact hm

theorem lookupStat_eq_none_of_not_mem {st : DirStats} {p : Path}
    (h : p ∉ st.map Prod.fst) : lookupStat st p = none := by
  cases hl : lookupStat st p with
  | none => rfl
  | some s =>
      exact absurd ((lookupStat_isSome_iff st p).mp (by rw [hl]; rfl)) h

theorem keys_updateStat_mem : ∀ (st : DirStats) (p : Path) (f : Stat → Stat),
    p ∈ st.map Prod.fst → (updateStat st p f).map Prod.fst = st.map Prod.fst
  | [], p, f, h => by simp at h
  | (q, s) :: rest, p, f, h => by
      rw [updateStat_cons]
      by_cases hq : q = p
      · rw [if_pos hq]
        simp
      · rw [if_neg hq]
        simp only [List.map_cons]
        simp only [List.map_cons, List.mem_cons] at h
        rcases h with rfl | h
        · exact absurd rfl hq
        · rw [keys_updateStat_mem rest p f h]

theorem keys_updateStat_not_mem : ∀ (st : DirStats) (p : Path) (f : Stat → Stat),
    p ∉ st.map Prod.fst →
    (updateStat st p f).map Prod.fst = st.map Prod.fst ++ [p]
  | [], p, f, h => by simp [updateStat_nil]
  | (q, s) :: rest, p, f, h => by
      rw [updateStat_cons]
      simp only [List.map_cons, List.mem_cons, not_or] at h
      rw [if_neg (fun he => h.1 he.symm)]
      simp only [List.map_cons, List.cons_append, List.cons.injEq, true_and]
      exact keys_updateStat_not_mem rest p f h.2

theorem lookupStat_updateStat_self : ∀ (st : DirStats) (p : Path) (f : Stat → Stat),
    lookupStat (updateStat st p f) p = some (f ((lookupStat st p).getD ⟨0, 0⟩))
  | [], p, f => by
      rw [updateStat_nil, lookupStat_cons, if_pos rfl, lookupStat_nil]
      rfl
  | (q, s) :: rest, p, f => by
      rw [updateStat_cons]
      by_cases hq : q = p
      · rw [if_pos hq, lookupStat_cons, if_pos hq, lookupStat_cons, if_pos hq]
        rfl
      · rw [if_neg hq, lookupStat_cons, if_neg hq, lookupStat_cons, if_neg hq]
        exact lookupStat_updateStat_self rest p f

theorem lookupStat_updateStat_ne : ∀ (st : DirStats) (p : Path) (f : Stat → Stat)
    (q : Path), q ≠ p → lookupStat (updateStat st p f) q = lookupStat st q
  | [], p, f, q, h => by
      rw [updateStat_nil, lookupStat_cons, if_neg (fun he => h he.symm), lookupStat_nil]
  | (k, s) :: rest, p, f, q, h => by
      rw [updateStat_cons]
      by_cases hk : k = p
      · subst hk
        rw [if_pos rfl, lookupStat_cons, lookupStat_cons]
        rw [if_neg (fun he => h he.symm), if_neg (fun he => h he.symm)]
      · rw [if_neg hk, lookupStat_cons, lookupStat_cons]
        by_cases hkq : k = q
        · rw [if_pos hkq, if_pos hkq]
        · rw [if_neg hkq, if_neg hkq]
          exact lookupStat_updateStat_ne rest p f q h

theorem filter_key_eq : ∀ (st : DirStats), (st.map Prod.fst).Nodup →
    ∀ {d : Path} {s : Stat}, lookupStat st d = some s →
    st.filter (fun e => decide (e.1 = d)) = [(d, s)]
  | [], _, d, s, h => by rw [lookupStat_nil] at h; cases h
  | (q, s₀) :: rest, hnd, d, s, h => by
      simp only [List.map_cons, List.nodup_cons] at hnd
      rw [lookupStat_cons] at h
      by_cases hq : q = d
      · subst hq
        rw [if_pos rfl] at h
        injection h with h
        subst h
        rw [List.filter_cons_of_pos (by simp)]
        have hrest : rest.filter (fun e => decide (e.1 = q)) = [] := by
          rw [List.filter_eq_nil_iff]
          intro e he
          simp only [decide_eq_true_eq]
          intro heq
          exact hnd.1 (heq ▸ List.mem_map_of_mem Prod.fst he)
        rw [hrest]
      · rw [if_neg hq] at h
        rw [List.filter_cons_of_neg (by simpa using hq)]
        exact filter_key_eq rest hnd.2 h

theorem sumStats_single (d : Path) (s : Stat) : sumStats [(d, s)] = s := by
  cases s
  simp [sumStats]

theorem sumStats_append (l1 l2 : DirStats) :
    sumStats (l1 ++ l2) = ⟨(sumStats l1).totalSize + (sumStats l2).totalSize,
      (sumStats l1).fileCount + (sumStats l2).fileCount⟩ := by
  simp [sumStats]

theorem sumStats_perm {l l' : DirStats} (h : l.Perm l') : sumStats l = sumStats l' := by
  unfold sumStats
  rw [(h.map _).sum_eq, (h.map _).sum_eq]

theorem filter_partition_perm : ∀ (l : DirStats) (pq pp qq : Path × Stat → Bool),
    (∀ e ∈ l, pq e = (pp e || qq e)) → (∀ e ∈ l, ¬(pp e = true ∧ qq e = true)) →
    (l.filter pq).Perm (l.filter pp ++ l.filter qq)
  | [], _, _, _, _, _ => by simp
  | e :: rest, pq, pp, qq, hiff, hdisj => by
      have ih := filter_partition_perm rest pq pp qq
        (fun x hx => hiff x (List.mem_cons_of_mem e hx))
        (fun x hx => hdisj x (List.mem_cons_of_mem e hx))
      have he := hiff e (List.mem_cons_self e rest)
      have hde := hdisj e (List.mem_cons_self e rest)
      cases hpp : pp e with
      | true =>
          have hqq : qq e = false := by
            cases hqq : qq e with
            | true => exact absurd ⟨hpp, hqq⟩ hde
            | false => rfl
          rw [hpp, hqq] at he
          rw [List.filter_cons_of_pos (by rw [he]; rfl),
            List.filter_cons_of_pos hpp,
            List.filter_cons_of_neg (by rw [hqq]; simp)]
          exact ih.cons e
      | false =>
          cases hqq : qq e with
          | true =>
              rw [hpp, hqq] at he
              rw [List.filter_cons_of_pos (by rw [he]; rfl),
                List.filter_cons_of_neg (by rw [hpp]; simp),
                List.filter_cons_of_pos hqq]
              exact (ih.cons e).trans List.perm_middle.symm
          | false =>
              rw [hpp, hqq] at he
              rw [List.filter_cons_of_neg (by rw [he]; simp),
                List.filter_cons_of_neg (by rw [hpp]; simp),
                List.filter_cons_of_neg (by rw [hqq]; simp)]
              exact ih

/-! ### The accumulation step and partial-sum characterisations -/

theorem aggStep_parent_self {st : DirStats} {p : Path} (h : dirOf p = p) :
    aggStep st p = st := by
  unfold aggStep
  rw [if_pos h]

theorem aggStep_parent_none {st : DirStats} {p : Path}
    (h : lookupStat st (dirOf p) = none) : aggStep st p = st := by
  unfold aggStep
  split
  · rfl
  · rw [h]

theorem aggStep_update {st : DirStats} {p : Path} {ps cs : Stat} (hne : dirOf p ≠ p)
    (hg : lookupStat st (dirOf p) = some ps) (hp : lookupStat st p = some cs) :
    aggStep st p = updateStat st (dirOf p)
      (fun _ => ⟨ps.totalSize + cs.totalSize, ps.fileCount + cs.fileCount⟩) := by
  unfold aggStep
  rw [if_neg hne, hg, hp]

theorem keys_aggStep (st : DirStats) (p : Path) :
    (aggStep st p).map Prod.fst = st.map Prod.fst := by
  unfold aggStep
  split
  · rfl
  · cases hg : lookupStat st (dirOf p) with
    | none => cases lookupStat st p <;> rfl
    | some ps =>
        cases hp : lookupStat st p with
        | none => rfl
        | some cs =>
            exact keys_updateStat_mem st (dirOf p) _
              ((lookupStat_isSome_iff st (dirOf p)).mp (by rw [hg]; rfl))

theorem keys_foldl_aggStep : ∀ (ord : List Path) (st : DirStats),
    ((ord.foldl aggStep st).map Prod.fst) = st.map Prod.fst
  | [], st => rfl
  | q :: rest, st => by
      rw [List.foldl_cons, keys_foldl_aggStep rest (aggStep st q), keys_aggStep]

theorem partStats_nil {st₀ : DirStats} (hnd : (st₀.map Prod.fst).Nodup)
    {d : Path} {s : Stat} (hl : lookupStat st₀ d = some s) :
    partStats st₀ [] d = s := by
  unfold partStats
  have hcong : (st₀.filter fun e =>
      decide (belowEq d e.1 ∧ flowed (st₀.map Prod.fst) [] d e.1))
      = st₀.filter (fun e => decide (e.1 = d)) := by
    apply List.filter_congr
    intro e he
    apply decide_eq_decide.mpr
    constructor
    · rintro ⟨hbe, hfl⟩
      rcases hbe with heq | hb
      · exact heq
      · exact absurd (hfl e.1 (List.mem_map_of_mem Prod.fst he) hb (Or.inl rfl))
          (List.not_mem_nil e.1)
    · intro heq
      refine ⟨Or.inl heq, ?_⟩
      intro k hk hbk hbek
      exfalso
      rw [heq] at hbek
      rcases hbek with rfl | hkd
      · exact below_irrefl _ hbk
      · exact below_irrefl d (below_trans hbk hkd)
  rw [hcong, filter_key_eq st₀ hnd hl, sumStats_single]

theorem partStats_done_of_sub (st₀ : DirStats) {done : List Path} {q : Path}
    (h : ∀ k ∈ st₀.map Prod.fst, below q k → k ∈ done) :
    partStats st₀ done q = subStats st₀ q := by
  unfold partStats subStats
  congr 1
  apply List.filter_congr
  intro e he
  apply decide_eq_decide.mpr
  constructor
  · exact fun hx => hx.1
  · intro h1
    exact ⟨h1, fun k hk hbk _ => h k hk hbk⟩

theorem partStats_snoc_eq (st₀ : DirStats) (done : List Path) (q d : Path)
    (hno_new : ∀ p ∈ st₀.map Prod.fst, belowEq d p →
        flowed (st₀.map Prod.fst) (done ++ [q]) d p →
        flowed (st₀.map Prod.fst) done d p) :
    partStats st₀ (done ++ [q]) d = partStats st₀ done d := by
  unfold partStats
  congr 1
  apply List.filter_congr
  intro e he
  apply decide_eq_decide.mpr
  constructor
  · rintro ⟨h1, h2⟩
    exact ⟨h1, hno_new e.1 (List.mem_map_of_mem Prod.fst he) h1 h2⟩
  · rintro ⟨h1, h2⟩
    exact ⟨h1, fun k hk hbk hbek => List.mem_append_left _ (h2 k hk hbk hbek)⟩

theorem partStats_snoc_parent (st₀ : DirStats) (done : List Path) (q g : Path)
    (hiff : ∀ p ∈ st₀.map Prod.fst,
      (belowEq g p ∧ flowed (st₀.map Prod.fst) (done ++ [q]) g p) ↔
        ((belowEq g p ∧ flowed (st₀.map Prod.fst) done g p) ∨ belowEq q p))
    (hdisj : ∀ p ∈ st₀.map Prod.fst,
      ¬((belowEq g p ∧ flowed (st₀.map Prod.fst) done g p) ∧ belowEq q p)) :
    partStats st₀ (done ++ [q]) g =
      ⟨(partStats st₀ done g).totalSize + (subStats st₀ q).totalSize,
        (partStats st₀ done g).fileCount + (subStats st₀ q).fileCount⟩ := by
  unfold partStats subStats
  have hperm := filter_partition_perm st₀
    (fun e => decide (belowEq g e.1 ∧ flowed (st₀.map Prod.fst) (done ++ [q]) g e.1))
    (fun e => decide (belowEq g e.1 ∧ flowed (st₀.map Prod.fst) done g e.1))
    (fun e => decide (belowEq q e.1))
    (fun e he => by
      rw [← Bool.decide_or]
      apply decide_eq_decide.mpr
      exact hiff e.1 (List.mem_map_of_mem Prod.fst he))
    (fun e he => by
      simp only [decide_eq_true_eq]
      exact hdisj e.1 (List.mem_map_of_mem Prod.fst he))
  rw [sumStats_perm hperm, sumStats_append]

/-! ### The bottom-up sweep computes full subtree sums -/

theorem aggStep_inv (st₀ : DirStats)
    (hnd : (st₀.map Prod.fst).Nodup)
    (hpar : ∀ k ∈ st₀.map Prod.fst, (∃ d ∈ st₀.map Prod.fst, below d k) →
      dirOf k ∈ st₀.map Prod.fst)
    (hdb : ∀ k ∈ st₀.map Prod.fst, dirOf k ∈ st₀.map Prod.fst → below (dirOf k) k)
    (q : Path) (done : List Path) (cur : DirStats)
    (hq : q ∈ st₀.map Prod.fst) (hqnd : q ∉ done)
    (hA2 : ∀ k ∈ st₀.map Prod.fst, below q k → k ∈ done)
    (hA3 : dirOf q ∉ done)
    (hkeys : cur.map Prod.fst = st₀.map Prod.fst)
    (hinv : ∀ d ∈ st₀.map Prod.fst, lookupStat cur d = some (partStats st₀ done d)) :
    ∀ d ∈ st₀.map Prod.fst,
      lookupStat (aggStep cur q) d = some (partStats st₀ (done ++ [q]) d) := by
  intro d hd
  by_cases hgq : dirOf q = q
  · have hno : ∀ p ∈ st₀.map Prod.fst, belowEq d p →
        flowed (st₀.map Prod.fst) (done ++ [q]) d p →
        flowed (st₀.map Prod.fst) done d p := by
      intro p hp hbp hfl k hk hbk hbek
      rcases List.mem_append.mp (hfl k hk hbk hbek) with h1 | h1
      · exact h1
      · exfalso
        rw [List.mem_singleton] at h1
        have hgK := hpar k hk ⟨d, hd, hbk⟩
        have hb := hdb k hk hgK
        rw [h1, hgq] at hb
        exact below_irrefl q hb
    rw [aggStep_parent_self hgq, hinv d hd, partStats_snoc_eq st₀ done q d hno]
  · by_cases hgK : dirOf q ∈ st₀.map Prod.fst
    · have hbgq : below (dirOf q) q := hdb q hq hgK
      have hlg : lookupStat cur (dirOf q) = some (partStats st₀ done (dirOf q)) :=
        hinv _ hgK
      have hlq : lookupStat cur q = some (partStats st₀ done q) := hinv q hq
      have hsubq : partStats st₀ done q = subStats st₀ q :=
        partStats_done_of_sub st₀ (fun k hk hbk => hA2 k hk hbk)
      rw [aggStep_update hgq hlg hlq]
      by_cases hdg : d = dirOf q
      · rw [hdg]
        have hiff : ∀ p ∈ st₀.map Prod.fst,
            (belowEq (dirOf q) p ∧ flowed (st₀.map Prod.fst) (done ++ [q]) (dirOf q) p) ↔
              ((belowEq (dirOf q) p ∧ flowed (st₀.map Prod.fst) done (dirOf q) p) ∨
                belowEq q p) := by
          intro p hp
          constructor
          · rintro ⟨h1, h2⟩
            by_cases hf : flowed (st₀.map Prod.fst) done (dirOf q) p
            · exact Or.inl ⟨h1, hf⟩
            · unfold flowed at hf
              push_neg at hf
              obtain ⟨k, hk, hbk, hbek, hknd⟩ := hf
              rcases List.mem_append.mp (h2 k hk hbk hbek) with h3 | h3
              · exact absurd h3 hknd
              · rw [List.mem_singleton] at h3
                exact Or.inr (h3 ▸ hbek)
          · rintro (⟨h1, h2⟩ | hqp)
            · exact ⟨h1, fun k hk hbk hbek => List.mem_append_left _ (h2 k hk hbk hbek)⟩
            · refine ⟨Or.inr (below_trans_of_belowEq hbgq hqp), ?_⟩
              intro k hk hbk hbek
              rcases ancestors_total hbek hqp with hkq | hqk
              · rcases hkq with heq | hkq
                · exact List.mem_append_right _ (List.mem_singleton.mpr heq.symm)
                · exfalso
                  rcases belowEq_dirOf_of_below hkq with heq2 | hkg
                  · exact below_irrefl k (heq2 ▸ hbk)
                  · exact below_asymm hbk hkg
              · rcases hqk with heq | hqk
                · exact List.mem_append_right _ (List.mem_singleton.mpr heq)
                · exact List.mem_append_left _ (hA2 k hk hqk)
        have hdisj : ∀ p ∈ st₀.map Prod.fst,
            ¬((belowEq (dirOf q) p ∧ flowed (st₀.map Prod.fst) done (dirOf q) p) ∧
              belowEq q p) := by
          rintro p hp ⟨⟨h1, h2⟩, hqp⟩
          exact hqnd (h2 q hq hbgq hqp)
        rw [lookupStat_updateStat_self]
        rw [hsubq, partStats_snoc_parent st₀ done q (dirOf q) hiff hdisj]
      · have hno2 : ∀ p ∈ st₀.map Prod.fst, belowEq d p →
            flowed (st₀.map Prod.fst) (done ++ [q]) d p →
            flowed (st₀.map Prod.fst) done d p := by
          intro p hp hbp hfl k hk hbk hbek
          rcases List.mem_append.mp (hfl k hk hbk hbek) with h1 | h1
          · exact h1
          · exfalso
            rw [List.mem_singleton] at h1
            have hbk' : below d q := h1 ▸ hbk
            have hbek' : belowEq q p := h1 ▸ hbek
            have hdgq : below d (dirOf q) := by
              rcases belowEq_dirOf_of_below hbk' with heq | hlt
              · exact absurd heq.symm hdg
              · exact hlt
            have hgp : belowEq (dirOf q) p :=
              Or.inr (below_trans_of_belowEq hbgq hbek')
            rcases List.mem_append.mp (hfl (dirOf q) hgK hdgq hgp) with h4 | h4
            · exact hA3 h4
            · rw [List.mem_singleton] at h4
              exact hgq h4
        rw [lookupStat_updateStat_ne _ _ _ _ hdg, hinv d hd,
          partStats_snoc_eq st₀ done q d hno2]
    · have hnone : lookupStat cur (dirOf q) = none := by
        apply lookupStat_eq_none_of_not_mem
        rw [hkeys]
        exact hgK
      have hno3 : ∀ p ∈ st₀.map Prod.fst, belowEq d p →
          flowed (st₀.map Prod.fst) (done ++ [q]) d p →
          flowed (st₀.map Prod.fst) done d p := by
        intro p hp hbp hfl k hk hbk hbek
        rcases List.mem_append.mp (hfl k hk hbk hbek) with h1 | h1
        · exact h1
        · exfalso
          rw [List.mem_singleton] at h1
          exact hgK (hpar k hk ⟨d, hd, hbk⟩ |> (h1 ▸ ·))
      rw [aggStep_parent_none hnone, hinv d hd, partStats_snoc_eq st₀ done q d hno3]

theorem agg_go (st₀ : DirStats)
    (hnd : (st₀.map Prod.fst).Nodup)
    (hpar : ∀ k ∈ st₀.map Prod.fst, (∃ d ∈ st₀.map Prod.fst, below d k) →
      dirOf k ∈ st₀.map Prod.fst)
    (hdb : ∀ k ∈ st₀.map Prod.fst, dirOf k ∈ st₀.map Prod.fst → below (dirOf k) k) :
    ∀ (todo done : List Path) (cur : DirStats),
      cur.map Prod.fst = st₀.map Prod.fst →
      (done ++ todo).Perm (st₀.map Prod.fst) →
      (done ++ todo).Pairwise (fun a b => ¬ below a b ∧ a ≠ dirOf b) →
      (∀ d ∈ st₀.map Prod.fst, lookupStat cur d = some (partStats st₀ done d)) →
      ∀ d ∈ st₀.map Prod.fst,
        lookupStat (todo.foldl aggStep cur) d = some (partStats st₀ (done ++ todo) d)
  | [], done, cur, hkeys, hperm, hpw, hinv => by simpa using hinv
  | q :: todo', done, cur, hkeys, hperm, hpw, hinv => by
      have hndlist : (done ++ q :: todo').Nodup := hperm.nodup_iff.mpr hnd
      have hq : q ∈ st₀.map Prod.fst := hperm.mem_iff.mp (by simp)
      have hqnd : q ∉ done := by
        intro hmem
        exact (List.nodup_append.mp hndlist).2.2 hmem (List.mem_cons_self q todo')
      have hA2 : ∀ k ∈ st₀.map Prod.fst, below q k → k ∈ done := by
        intro k hk hbk
        have hkin : k ∈ done ++ q :: todo' := hperm.mem_iff.mpr hk
        rcases List.mem_append.mp hkin with h1 | h1
        · exact h1
        · rcases List.mem_cons.mp h1 with rfl | h2
          · exact absurd hbk (below_irrefl _)
          · exfalso
            have hp2 := (List.pairwise_append.mp hpw).2.1
            exact ((List.pairwise_cons.mp hp2).1 k h2).1 hbk
      have hA3 : dirOf q ∉ done := by
        intro hmem
        exact ((List.pairwise_append.mp hpw).2.2 (dirOf q) hmem q
          (List.mem_cons_self q todo')).2 rfl
      have hstep := aggStep_inv st₀ hnd hpar hdb q done cur hq hqnd hA2 hA3 hkeys hinv
      have hkeys' : (aggStep cur q).map Prod.fst = st₀.map Prod.fst := by
        rw [keys_aggStep, hkeys]
      have hperm' : ((done ++ [q]) ++ todo').Perm (st₀.map Prod.fst) := by
        simpa [List.append_assoc] using hperm
      have hpw' : ((done ++ [q]) ++ todo').Pairwise
          (fun a b => ¬ below a b ∧ a ≠ dirOf b) := by
        simpa [List.append_assoc] using hpw
      intro d hd
      have h2 := agg_go st₀ hnd hpar hdb todo' (done ++ [q]) (aggStep cur q)
        hkeys' hperm' hpw' hstep d hd
      rw [List.foldl_cons]
      rw [List.append_assoc] at h2
      simpa using h2

theorem agg_subStats (st₀ : DirStats)
    (hnd : (st₀.map Prod.fst).Nodup)
    (hpar : ∀ k ∈ st₀.map Prod.fst, (∃ d ∈ st₀.map Prod.fst, below d k) →
      dirOf k ∈ st₀.map Prod.fst)
    (hdb : ∀ k ∈ st₀.map Prod.fst, dirOf k ∈ st₀.map Prod.fst → below (dirOf k) k)
    (ord : List Path) (hperm : ord.Perm (st₀.map Prod.fst))
    (hpw : ord.Pairwise (fun a b => ¬ below a b ∧ a ≠ dirOf b)) :
    ∀ d ∈ st₀.map Prod.fst,
      lookupStat (ord.foldl aggStep st₀) d = some (subStats st₀ d) := by
  have hbase : ∀ d ∈ st₀.map Prod.fst, lookupStat st₀ d = some (partStats st₀ [] d) := by
    intro d hd
    obtain ⟨s, hs⟩ := Option.isSome_iff_exists.mp ((lookupStat_isSome_iff st₀ d).mpr hd)
    rw [hs, partStats_nil hnd hs]
  intro d hd
  have h := agg_go st₀ hnd hpar hdb ord [] st₀ rfl (by simpa using hperm)
    (by simpa using hpw) hbase d hd
  rw [h]
  have hsub : partStats st₀ ([] ++ ord) d = subStats st₀ d := by
    show partStats st₀ ord d = subStats st₀ d
    exact partStats_done_of_sub st₀ (fun k hk _ => hperm.mem_iff.mpr hk)
  rw [hsub]

/-! ### Admissibility of the two processing orders -/

theorem countSep_le_of_prefix {a b : Path} (h : a <+: b) : countSep a ≤ countSep b := by
  obtain ⟨t, rfl⟩ := h
  rw [countSep_append]
  omega

theorem countSep_lt_of_below {a b : Path} (ha : a ≠ [sep]) (h : below a b) :
    countSep a < countSep b := by
  have h1 : countSep (dirSep a) ≤ countSep b := countSep_le_of_prefix h.1
  rw [dirSep_eq ha, countSep_append] at h1
  have : countSep [sep] = 1 := by decide
  omega

theorem insertByDepth_perm (p : Path) : ∀ l, (insertByDepth p l).Perm (p :: l)
  | [] => .refl _
  | q :: rest => by
      unfold insertByDepth
      split
      · exact .refl _
      · exact ((insertByDepth_perm p rest).cons q).trans (List.Perm.swap p q rest)

theorem sortByDepthDesc_perm (ps : List Path) : (sortByDepthDesc ps).Perm ps := by
  unfold sortByDepthDesc
  induction ps with
  | nil => exact .refl _
  | cons p rest ih =>
      rw [List.foldr_cons]
      exact (insertByDepth_perm p _).trans (ih.cons p)

theorem pairwise_insertByDepth {p : Path} {l : List Path}
    (h : l.Pairwise (fun a b => countSep b ≤ countSep a)) :
    (insertByDepth p l).Pairwise (fun a b => countSep b ≤ countSep a) := by
  induction l with
  | nil => simp [insertByDepth]
  | cons q rest ih =>
      rw [List.pairwise_cons] at h
      unfold insertByDepth
      split
      · rename_i hgt
        refine List.pairwise_cons.mpr ⟨?_, List.pairwise_cons.mpr h⟩
        intro b hb
        rcases List.mem_cons.mp hb with rfl | hb'
        · omega
        · have := h.1 b hb'
          omega
      · rename_i hle
        refine List.pairwise_cons.mpr ⟨?_, ih h.2⟩
        intro b hb
        rcases List.mem_cons.mp ((insertByDepth_perm p rest).mem_iff.mp hb) with rfl | hb'
        · omega
        · exact h.1 b hb'

theorem sortByDepthDesc_sorted (ps : List Path) :
    (sortByDepthDesc ps).Pairwise (fun a b => countSep b ≤ countSep a) := by
  unfold sortByDepthDesc
  induction ps with
  | nil => simp
  | cons p rest ih =>
      rw [List.foldr_cons]
      exact pairwise_insertByDepth ih

theorem ordCond_of_sorted_len {K : List Path}
    (hdb : ∀ k ∈ K, dirOf k ∈ K → below (dirOf k) k)
    {ord : List Path} (hperm : ord.Perm K)
    (hpw : ord.Pairwise (fun a b => b.length ≤ a.length)) :
    ord.Pairwise (fun a b => ¬ below a b ∧ a ≠ dirOf b) := by
  refine hpw.imp_of_mem ?_
  intro a b ha hb hlen
  have haK : a ∈ K := hperm.mem_iff.mp ha
  have hbK : b ∈ K := hperm.mem_iff.mp hb
  constructor
  · intro hab
    have := below_length_lt hab
    omega
  · intro heq
    have hgb : dirOf b ∈ K := heq ▸ haK
    have := below_length_lt (hdb b hbK hgb)
    rw [← heq] at this
    omega

theorem ordCond_of_sorted_depth {K : List Path}
    (hdb : ∀ k ∈ K, dirOf k ∈ K → below (dirOf k) k)
    (hne : ∀ k ∈ K, k ≠ [sep])
    {ord : List Path} (hperm : ord.Perm K)
    (hpw : ord.Pairwise (fun a b => countSep b ≤ countSep a)) :
    ord.Pairwise (fun a b => ¬ below a b ∧ a ≠ dirOf b) := by
  refine hpw.imp_of_mem ?_
  intro a b ha hb hdep
  have haK : a ∈ K := hperm.mem_iff.mp ha
  have hbK : b ∈ K := hperm.mem_iff.mp hb
  constructor
  · intro hab
    have := countSep_lt_of_below (hne a haK) hab
    omega
  · intro heq
    have hgb : dirOf b ∈ K := heq ▸ haK
    have := countSep_lt_of_below (hne _ hgb) (hdb b hbK hgb)
    rw [← heq] at this
    omega

/-! ### Structural invariants of the traversal -/

theorem isAbsRoot_two_le {r : Path} (hr : isAbsRoot r = true) : 2 ≤ r.length := by
  cases r with
  | nil => simp [isAbsRoot] at hr
  | cons c t =>
      cases t with
      | nil => simp [isAbsRoot] at hr
      | cons c' t' => simp

theorem isAbsRoot_ne_nil {r : Path} (hr : isAbsRoot r = true) : r ≠ [] := by
  have := isAbsRoot_two_le hr
  intro he
  rw [he] at this
  simp at this

theorem sep_mem_of_isAbsRoot {r : Path} (hr : isAbsRoot r = true) : sep ∈ r := by
  cases r with
  | nil => simp [isAbsRoot] at hr
  | cons c t =>
      simp only [isAbsRoot, Bool.and_eq_true, decide_eq_true_eq] at hr
      rw [hr.1]
      exact List.mem_cons_self sep t

theorem dirOf_length_lt {r : Path} (hr : isAbsRoot r = true) :
    (dirOf r).length < r.length := by
  obtain ⟨u, v, hq, hv⟩ := exists_last_sep (sep_mem_of_isAbsRoot hr)
  have h2 := isAbsRoot_two_le hr
  subst hq
  rw [dirOf_append_sep u v hv]
  by_cases hu : u = []
  · rw [if_pos hu]
    subst hu
    simp only [List.nil_append, List.length_cons, List.length_nil] at h2 ⊢
    omega
  · rw [if_neg hu]
    simp only [List.length_append, List.length_cons]
    omega

theorem belowEq_ne_nil {r k : Path} (hr : isAbsRoot r = true) (h : belowEq r k) :
    k ≠ [] := by
  have h1 := belowEq_length_le h
  have h2 := isAbsRoot_two_le hr
  intro he
  rw [he] at h1
  simp only [List.length_nil] at h1
  omega

theorem belowEq_ne_sep {r k : Path} (hr : isAbsRoot r = true) (h : belowEq r k) :
    k ≠ [sep] := by
  have h1 := belowEq_length_le h
  have h2 := isAbsRoot_two_le hr
  intro he
  rw [he] at h1
  simp only [List.length_cons, List.length_nil] at h1
  omega

theorem ok_nameOk {e : FSEntry} (h : FSEntry.ok e = true) : nameOk e.name = true := by
  cases e <;> simp only [FSEntry.ok, FSEntry.name, Bool.and_eq_true] at h ⊢ <;> tauto

theorem childPath_ne_nil (d n : Path) : childPath d n ≠ [] := by
  unfold childPath
  split
  · simp
  · simp

theorem getDirStat_inv {r path : Path} {st : DirStats}
    (hst : goodKeys r (st.map Prod.fst)) (hbel : belowEq r path)
    (hpar : path = r ∨ (dirOf path ∈ st.map Prod.fst ∧ below (dirOf path) path)) :
    goodKeys r ((getDirStat path st).map Prod.fst) ∧
    path ∈ (getDirStat path st).map Prod.fst ∧
    (∀ k ∈ st.map Prod.fst, k ∈ (getDirStat path st).map Prod.fst) ∧
    (∀ k ∈ (getDirStat path st).map Prod.fst, k ∈ st.map Prod.fst ∨ k = path) := by
  unfold getDirStat
  by_cases hm : path ∈ st.map Prod.fst
  · rw [keys_updateStat_mem st path id hm]
    exact ⟨hst, hm, fun k hk => hk, fun k hk => Or.inl hk⟩
  · rw [keys_updateStat_not_mem st path id hm]
    refine ⟨⟨?_, ?_⟩, ?_, ?_, ?_⟩
    · rw [List.nodup_append]
      refine ⟨hst.1, List.nodup_singleton path, ?_⟩
      intro a ha hb
      rw [List.mem_singleton] at hb
      subst hb
      exact hm ha
    · intro k hk
      rcases List.mem_append.mp hk with h1 | h1
      · obtain ⟨hb, hp⟩ := hst.2 k h1
        refine ⟨hb, ?_⟩
        rcases hp with h2 | h2
        · exact Or.inl h2
        · exact Or.inr ⟨List.mem_append_left _ h2.1, h2.2⟩
      · rw [List.mem_singleton] at h1
        subst h1
        refine ⟨hbel, ?_⟩
        rcases hpar with h2 | h2
        · exact Or.inl h2
        · exact Or.inr ⟨List.mem_append_left _ h2.1, h2.2⟩
    · exact List.mem_append_right _ (List.mem_singleton.mpr rfl)
    · exact fun k hk => List.mem_append_left _ hk
    · intro k hk
      rcases List.mem_append.mp hk with h1 | h1
      · exact Or.inl h1
      · exact Or.inr (List.mem_singleton.mp h1)

mutual
theorem walkEntry_inv (md : Int) (ex : List Path) (rd : Nat) (r : Path)
    (hr : isAbsRoot r = true) :
    ∀ (e : FSEntry) (path : Path) (st : DirStats) (cnt : Nat),
      FSEntry.ok e = true →
      goodKeys r (st.map Prod.fst) →
      belowEq r path →
      (path = r ∨ (dirOf path ∈ st.map Prod.fst ∧ below (dirOf path) path)) →
      (∀ n sz, e = FSEntry.file n sz → dirOf path ∈ st.map Prod.fst) →
      goodKeys r ((walkEntry md ex rd path e st cnt).1.map Prod.fst) ∧
      (∀ k ∈ st.map Prod.fst, k ∈ (walkEntry md ex rd path e st cnt).1.map Prod.fst) ∧
      (∀ k ∈ (walkEntry md ex rd path e st cnt).1.map Prod.fst,
        k ∈ st.map Prod.fst ∨ belowEq r k)
  | .file n sz, path, st, cnt => fun _ hst _ _ hfile => by
      rw [walkEntry_file]
      split
      · exact ⟨hst, fun k hk => hk, fun k hk => Or.inl hk⟩
      · have hm := hfile n sz rfl
        unfold addFile
        rw [keys_updateStat_mem st (dirOf path) _ hm]
        exact ⟨hst, fun k hk => hk, fun k hk => Or.inl hk⟩
  | .badFile n, path, st, cnt => fun _ hst _ _ _ => by
      rw [walkEntry_badFile]
      exact ⟨hst, fun k hk => hk, fun k hk => Or.inl hk⟩
  | .dir n es, path, st, cnt => fun hok hst hbel hpar _ => by
      rw [walkEntry_dir]
      split
      · exact ⟨hst, fun k hk => hk, fun k hk => Or.inl hk⟩
      · split
        · exact ⟨hst, fun k hk => hk, fun k hk => Or.inl hk⟩
        · obtain ⟨hgk, hpmem, hsub, hnew⟩ := getDirStat_inv hst hbel hpar
          have hokes : FSList.ok es = true := by
            simp only [FSEntry.ok, Bool.and_eq_true] at hok
            exact hok.2
          obtain ⟨hgk2, hsub2, hnew2⟩ :=
            walkList_inv md ex rd r hr es path (getDirStat path st) cnt hokes hgk hpmem
          refine ⟨hgk2, fun k hk => hsub2 k (hsub k hk), ?_⟩
          intro k hk
          rcases hnew2 k hk with h1 | h1
          · rcases hnew k h1 with h2 | h2
            · exact Or.inl h2
            · exact Or.inr (h2 ▸ hbel)
          · exact Or.inr h1
  | .badDir n, path, st, cnt => fun _ hst hbel hpar _ => by
      rw [walkEntry_badDir]
      split
      · exact ⟨hst, fun k hk => hk, fun k hk => Or.inl hk⟩
      · split
        · exact ⟨hst, fun k hk => hk, fun k hk => Or.inl hk⟩
        · obtain ⟨hgk, hpmem, hsub, hnew⟩ := getDirStat_inv hst hbel hpar
          refine ⟨hgk, hsub, ?_⟩
          intro k hk
          rcases hnew k hk with h1 | h1
          · exact Or.inl h1
          · exact Or.inr (h1 ▸ hbel)

theorem walkList_inv (md : Int) (ex : List Path) (rd : Nat) (r : Path)
    (hr : isAbsRoot r = true) :
    ∀ (es : FSList) (d : Path) (st : DirStats) (cnt : Nat),
      FSList.ok es = true →
      goodKeys r (st.map Prod.fst) →
      d ∈ st.map Prod.fst →
      goodKeys r ((walkList md ex rd d es st cnt).1.map Prod.fst) ∧
      (∀ k ∈ st.map Prod.fst, k ∈ (walkList md ex rd d es st cnt).1.map Prod.fst) ∧
      (∀ k ∈ (walkList md ex rd d es st cnt).1.map Prod.fst,
        k ∈ st.map Prod.fst ∨ belowEq r k)
  | .nil, d, st, cnt => fun _ hst _ => by
      rw [walkList_nil]
      exact ⟨hst, fun k hk => hk, fun k hk => Or.inl hk⟩
  | .cons e rest, d, st, cnt => fun hok hst hd => by
      simp only [FSList.ok, Bool.and_eq_true] at hok
      have hname := ok_nameOk hok.1
      have hnn := nameOk_ne_nil hname
      have hns := nameOk_sep_not_mem hname
      have hbeld : belowEq r d := (hst.2 d hd).1
      have hdnil : d ≠ [] := belowEq_ne_nil hr hbeld
      have hbelcp : belowEq r (childPath d e.name) :=
        belowEq_trans hbeld (Or.inr (below_childPath hnn))
      have hparcp : childPath d e.name = r ∨
          (dirOf (childPath d e.name) ∈ st.map Prod.fst ∧
            below (dirOf (childPath d e.name)) (childPath d e.name)) := by
        right
        rw [dirOf_childPath hdnil hns]
        exact ⟨hd, below_childPath hnn⟩
      have hfilecp : ∀ n sz, e = FSEntry.file n sz →
          dirOf (childPath d e.name) ∈ st.map Prod.fst := by
        intro n sz he
        rw [dirOf_childPath hdnil hns]
        exact hd
      obtain ⟨hgk1, hsub1, hnew1⟩ :=
        walkEntry_inv md ex rd r hr e (childPath d e.name) st cnt hok.1 hst hbelcp
          hparcp hfilecp
      obtain ⟨hgk2, hsub2, hnew2⟩ :=
        walkList_inv md ex rd r hr rest d
          (walkEntry md ex rd (childPath d e.name) e st cnt).1
          (walkEntry md ex rd (childPath d e.name) e st cnt).2
          hok.2 hgk1 (hsub1 d hd)
      rw [walkList_cons]
      refine ⟨hgk2, fun k hk => hsub2 k (hsub1 k hk), ?_⟩
      intro k hk
      rcases hnew2 k hk with h1 | h1
      · exact hnew1 k h1
      · exact Or.inr h1
end

/-! ### Conservation (C1) and order refinement (C6) -/

theorem scan_inv (md : Int) (ex : List Path) (r : Path) (t : FSEntry)
    (hr : isAbsRoot r = true) (hok : FSEntry.ok t = true) (hdl : isDirLike t = true) :
    goodKeys r ((scanDirectory md ex r t []).1.map Prod.fst) ∧
    ∀ k ∈ (scanDirectory md ex r t []).1.map Prod.fst, belowEq r k := by
  have hfile : ∀ n sz, t = FSEntry.file n sz →
      dirOf r ∈ ([] : DirStats).map Prod.fst := by
    intro n sz he
    rw [he] at hdl
    simp [isDirLike] at hdl
  have h := walkEntry_inv md ex (countSep r) r hr t r [] 0 hok
    ⟨List.nodup_nil, by simp⟩ (Or.inl rfl) (Or.inl rfl) hfile
  refine ⟨h.1, ?_⟩
  intro k hk
  rcases h.2.2 k hk with h1 | h1
  · simp at h1
  · exact h1

theorem goodKeys_hpar {r : Path} {K : List Path} (hg : goodKeys r K) :
    ∀ k ∈ K, (∃ d ∈ K, below d k) → dirOf k ∈ K := by
  rintro k hk ⟨d, hd, hbd⟩
  rcases (hg.2 k hk).2 with heq | h2
  · exfalso
    rw [heq] at hbd
    rcases (hg.2 d hd).1 with heq2 | h3
    · exact below_irrefl d (heq2 ▸ hbd)
    · exact below_asymm hbd h3
  · exact h2.1

theorem goodKeys_hdb {r : Path} {K : List Path} (hr : isAbsRoot r = true)
    (hg : goodKeys r K) :
    ∀ k ∈ K, dirOf k ∈ K → below (dirOf k) k := by
  intro k hk hgk
  rcases (hg.2 k hk).2 with heq | h2
  · exfalso
    rw [heq] at hgk
    have h1 := belowEq_length_le (hg.2 (dirOf r) hgk).1
    have h2 := dirOf_length_lt hr
    omega
  · exact h2.2

theorem keys_aggregateStats (st : DirStats) :
    (aggregateStats st).map Prod.fst = st.map Prod.fst := by
  unfold aggregateStats
  exact keys_foldl_aggStep _ _

theorem keys_aggregateStatsByDepth (st : DirStats) :
    (aggregateStatsByDepth st).map Prod.fst = st.map Prod.fst := by
  unfold aggregateStatsByDepth
  exact keys_foldl_aggStep _ _

/-- C1: conservation of the bottom-up aggregation.  For every single-root run
(any tree, any depth limit and exclusion set), every directory present in
the aggregated collection holds exactly the sum of the direct sizes and
direct file counts recorded over it and its entire visited subtree; in
particular, on the §8 scenario tree the cumulative values are
`/root ↦ (150 bytes, 2 files)` and `/root/b ↦ (50 bytes, 1 file)`. -/
theorem claim1_conservation :
    (∀ (md : Int) (ex : List Path) (r : Path) (t : FSEntry),
      isAbsRoot r = true → FSEntry.ok t = true → isDirLike t = true →
      ∀ d s, lookupStat (aggregateStats (scanDirectory md ex r t []).1) d = some s →
        s = subStats (scanDirectory md ex r t []).1 d) ∧
    (lookupStat (aggregateStats (scanDirectory 1000000 defaultExclude "/root".data
        scenarioTree []).1) "/root".data = some ⟨150, 2⟩ ∧
      lookupStat (aggregateStats (scanDirectory 1000000 defaultExclude "/root".data
        scenarioTree []).1) "/root/b".data = some ⟨50, 1⟩) := by
  constructor
  · intro md ex r t hr hok hdl d s hs
    obtain ⟨hgk, hbel⟩ := scan_inv md ex r t hr hok hdl
    have hnd := hgk.1
    have hpar := goodKeys_hpar hgk
    have hdb := goodKeys_hdb hr hgk
    have hperm := sortByLenDesc_perm ((scanDirectory md ex r t []).1.map Prod.fst)
    have hpw := ordCond_of_sorted_len hdb hperm (sortByLenDesc_sorted _)
    have hdK : d ∈ (scanDirectory md ex r t []).1.map Prod.fst := by
      have h1 : d ∈ (aggregateStats (scanDirectory md ex r t []).1).map Prod.fst :=
        (lookupStat_isSome_iff _ _).mp (by rw [hs]; rfl)
      rwa [keys_aggregateStats] at h1
    have h := agg_subStats (scanDirectory md ex r t []).1 hnd hpar hdb _ hperm hpw d hdK
    unfold aggregateStats at hs
    rw [hs] at h
    injection h with h
  · exact ⟨by decide, by decide⟩

/-- Witness for C1 at the §8 scenario: the theorem applied to the concrete
run yields exactly the cumulative value `(150, 2)` for `/root`. -/
theorem claim1_witness :
    (⟨150, 2⟩ : Stat) =
      subStats (scanDirectory 1000000 defaultExclude "/root".data scenarioTree []).1
        "/root".data :=
  claim1_conservation.1 1000000 defaultExclude "/root".data scenarioTree
    (by decide) (by decide) (by decide) "/root".data ⟨150, 2⟩ (by decide)

/-- C6: for every single-root run, aggregating in the implementation's order
(by descending string length) produces exactly the same cumulative totals
as aggregating in the specification's order (by descending segment-count
depth): the lookup of every recorded directory agrees. -/
theorem claim6_length_order_refines_depth_order :
    ∀ (md : Int) (ex : List Path) (r : Path) (t : FSEntry),
      isAbsRoot r = true → FSEntry.ok t = true → isDirLike t = true →
      ∀ d ∈ (scanDirectory md ex r t []).1.map Prod.fst,
        lookupStat (aggregateStats (scanDirectory md ex r t []).1) d
          = lookupStat (aggregateStatsByDepth (scanDirectory md ex r t []).1) d := by
  intro md ex r t hr hok hdl d hdK
  obtain ⟨hgk, hbel⟩ := scan_inv md ex r t hr hok hdl
  have hnd := hgk.1
  have hpar := goodKeys_hpar hgk
  have hdb := goodKeys_hdb hr hgk
  have hne : ∀ k ∈ (scanDirectory md ex r t []).1.map Prod.fst, k ≠ [sep] :=
    fun k hk => belowEq_ne_sep hr (hbel k hk)
  have hlen := agg_subStats (scanDirectory md ex r t []).1 hnd hpar hdb _
    (sortByLenDesc_perm _) (ordCond_of_sorted_len hdb (sortByLenDesc_perm _)
      (sortByLenDesc_sorted _)) d hdK
  have hdep := agg_subStats (scanDirectory md ex r t []).1 hnd hpar hdb _
    (sortByDepthDesc_perm _) (ordCond_of_sorted_depth hdb hne (sortByDepthDesc_perm _)
      (sortByDepthDesc_sorted _)) d hdK
  unfold aggregateStats aggregateStatsByDepth
  rw [hlen, hdep]

/-- Witness for C6 at the §8 scenario, at the directory `/root`. -/
theorem claim6_witness :
    lookupStat (aggregateStats (scanDirectory 1000000 defaultExclude "/root".data
        scenarioTree []).1) "/root".data
      = lookupStat (aggregateStatsByDepth (scanDirectory 1000000 defaultExclude
        "/root".data scenarioTree []).1) "/root".data :=
  claim6_length_order_refines_depth_order 1000000 defaultExclude "/root".data scenarioTree
    (by decide) (by decide) (by decide) "/root".data (by decide)

/-! ### Output filtering (C9) -/

theorem belowEq_isPrefix {r k : Path} (h : belowEq r k) : r <+: k := by
  rcases h with rfl | h
  · exact List.prefix_refl k
  · exact (prefix_dirSep r).trans h.1

theorem walkList_keys (md : Int) (ex : List Path) (rd : Nat) :
    ∀ (es : FSList) (d : Path) (st : DirStats) (cnt : Nat),
      FSList.ok es = true → d ≠ [] →
      ∀ k ∈ (walkList md ex rd d es st cnt).1.map Prod.fst,
        k ∈ st.map Prod.fst ∨ belowEq d k
  | .nil, d, st, cnt, _, _ => fun k hk => Or.inl hk
  | .cons e rest, d, st, cnt, hok, hdnil => by
      simp only [FSList.ok, Bool.and_eq_true] at hok
      have hname := ok_nameOk hok.1
      have hnn := nameOk_ne_nil hname
      have hns := nameOk_sep_not_mem hname
      have hentry : ∀ k ∈ (walkEntry md ex rd (childPath d e.name) e st cnt).1.map Prod.fst,
          k ∈ st.map Prod.fst ∨ belowEq d k := by
        cases e with
        | file n sz =>
            intro k hk
            rw [walkEntry_file] at hk
            rcases hsplit : (md ≠ -1 ∧ (countSep (childPath d (FSEntry.file n sz).name) : Int)
                - (rd : Int) > md) with _
            by_cases hc : md ≠ -1 ∧ (countSep (childPath d (FSEntry.file n sz).name) : Int)
                - (rd : Int) > md
            · rw [if_pos hc] at hk
              exact Or.inl hk
            · rw [if_neg hc] at hk
              unfold addFile at hk
              rw [dirOf_childPath hdnil hns] at hk
              by_cases hm : d ∈ st.map Prod.fst
              · rw [keys_updateStat_mem st d _ hm] at hk
                exact Or.inl hk
              · rw [keys_updateStat_not_mem st d _ hm] at hk
                rcases List.mem_append.mp hk with h1 | h1
                · exact Or.inl h1
                · exact Or.inr (Or.inl (List.mem_singleton.mp h1))
        | badFile n =>
            intro k hk
            rw [walkEntry_badFile] at hk
            exact Or.inl hk
        | dir n sub =>
            intro k hk
            rw [walkEntry_dir] at hk
            by_cases hc1 : ex.contains (childPath d (FSEntry.dir n sub).name) = true
            · rw [if_pos hc1] at hk
              exact Or.inl hk
            · rw [if_neg hc1] at hk
              by_cases hc2 : md ≠ -1 ∧ (countSep (childPath d (FSEntry.dir n sub).name) : Int)
                  - (rd : Int) > md
              · rw [if_pos hc2] at hk
                exact Or.inl hk
              · rw [if_neg hc2] at hk
                have hsubok : FSList.ok sub = true := by
                  have := hok.1
                  simp only [FSEntry.ok, Bool.and_eq_true] at this
                  exact this.2
                have hrec := walkList_keys md ex rd sub
                  (childPath d (FSEntry.dir n sub).name)
                  (getDirStat (childPath d (FSEntry.dir n sub).name) st) cnt hsubok
                  (childPath_ne_nil _ _) k hk
                rcases hrec with h1 | h1
                · unfold getDirStat at h1
                  by_cases hm : childPath d (FSEntry.dir n sub).name ∈ st.map Prod.fst
                  · rw [keys_updateStat_mem st _ _ hm] at h1
                    exact Or.inl h1
                  · rw [keys_updateStat_not_mem st _ _ hm] at h1
                    rcases List.mem_append.mp h1 with h2 | h2
                    · exact Or.inl h2
                    · rw [List.mem_singleton] at h2
                      exact Or.inr (h2 ▸ Or.inr (below_childPath hnn))
                · exact Or.inr (belowEq_trans (Or.inr (below_childPath hnn)) h1)
        | badDir n =>
            intro k hk
            rw [walkEntry_badDir] at hk
            by_cases hc1 : ex.contains (childPath d (FSEntry.badDir n).name) = true
            · rw [if_pos hc1] at hk
              exact Or.inl hk
            · rw [if_neg hc1] at hk
              by_cases hc2 : md ≠ -1 ∧ (countSep (childPath d (FSEntry.badDir n).name) : Int)
                  - (rd : Int) > md
              · rw [if_pos hc2] at hk
                exact Or.inl hk
              · rw [if_neg hc2] at hk
                unfold getDirStat at hk
                by_cases hm : childPath d (FSEntry.badDir n).name ∈ st.map Prod.fst
                · rw [keys_updateStat_mem st _ _ hm] at hk
                  exact Or.inl hk
                · rw [keys_updateStat_not_mem st _ _ hm] at hk
                  rcases List.mem_append.mp hk with h2 | h2
                  · exact Or.inl h2
                  · rw [List.mem_singleton] at h2
                    exact Or.inr (h2 ▸ Or.inr (below_childPath hnn))
      intro k hk
      rw [walkList_cons] at hk
      have hrest := walkList_keys md ex rd rest d
        (walkEntry md ex rd (childPath d e.name) e st cnt).1
        (walkEntry md ex rd (childPath d e.name) e st cnt).2 hok.2 hdnil k hk
      rcases hrest with h1 | h1
      · exact hentry k h1
      · exact Or.inr h1

theorem scanDirectory_keys (md : Int) (ex : List Path) (r : Path) (t : FSEntry)
    (st : DirStats) (hok : FSEntry.ok t = true) (hdl : isDirLike t = true)
    (hr : r ≠ []) :
    ∀ k ∈ (scanDirectory md ex r t st).1.map Prod.fst,
      k ∈ st.map Prod.fst ∨ belowEq r k := by
  intro k hk
  unfold scanDirectory at hk
  cases t with
  | file n sz => simp [isDirLike] at hdl
  | badFile n => simp [isDirLike] at hdl
  | dir n es =>
      rw [walkEntry_dir] at hk
      by_cases hc1 : ex.contains r = true
      · rw [if_pos hc1] at hk
        exact Or.inl hk
      · rw [if_neg hc1] at hk
        by_cases hc2 : md ≠ -1 ∧ (countSep r : Int) - (countSep r : Int) > md
        · rw [if_pos hc2] at hk
          exact Or.inl hk
        · rw [if_neg hc2] at hk
          have hokes : FSList.ok es = true := by
            simp only [FSEntry.ok, Bool.and_eq_true] at hok
            exact hok.2
          rcases walkList_keys md ex (countSep r) es r (getDirStat r st) 0 hokes hr k hk
            with h1 | h1
          · unfold getDirStat at h1
            by_cases hm : r ∈ st.map Prod.fst
            · rw [keys_updateStat_mem st _ _ hm] at h1
              exact Or.inl h1
            · rw [keys_updateStat_not_mem st _ _ hm] at h1
              rcases List.mem_append.mp h1 with h2 | h2
              · exact Or.inl h2
              · exact Or.inr (Or.inl (List.mem_singleton.mp h2))
          · exact Or.inr h1
  | badDir n =>
      rw [walkEntry_badDir] at hk
      by_cases hc1 : ex.contains r = true
      · rw [if_pos hc1] at hk
        exact Or.inl hk
      · rw [if_neg hc1] at hk
        by_cases hc2 : md ≠ -1 ∧ (countSep r : Int) - (countSep r : Int) > md
        · rw [if_pos hc2] at hk
          exact Or.inl hk
        · rw [if_neg hc2] at hk
          unfold getDirStat at hk
          by_cases hm : r ∈ st.map Prod.fst
          · rw [keys_updateStat_mem st _ _ hm] at hk
            exact Or.inl hk
          · rw [keys_updateStat_not_mem st _ _ hm] at hk
            rcases List.mem_append.mp hk with h2 | h2
            · exact Or.inl h2
            · exact Or.inr (Or.inl (List.mem_singleton.mp h2))

theorem runScan_go_keys (md : Int) (ex : List Path) :
    ∀ (roots : List (Path × Option FSEntry)) (acc : DirStats × Nat),
      (∀ rt ∈ roots, rt.1 ≠ [] ∧ ∀ t, rt.2 = some t →
        FSEntry.ok t = true ∧ isDirLike t = true) →
      ∀ k ∈ (roots.foldl
          (fun acc r =>
            match r.2 with
            | none => acc
            | some t =>
                let s := scanDirectory md ex r.1 t acc.1
                (s.1, acc.2 + s.2)) acc).1.map Prod.fst,
        k ∈ acc.1.map Prod.fst ∨ ∃ rt ∈ roots, belowEq rt.1 k
  | [], acc, _ => fun k hk => Or.inl hk
  | rt :: rest, acc, hroots => by
      intro k hk
      rw [List.foldl_cons] at hk
      have hrt := hroots rt (List.mem_cons_self rt rest)
      have hrest := fun r hr => hroots r (List.mem_cons_of_mem rt hr)
      cases hmt : rt.2 with
      | none =>
          rw [hmt] at hk
          rcases runScan_go_keys md ex rest acc hrest k hk with h1 | ⟨r', hr', h2⟩
          · exact Or.inl h1
          · exact Or.inr ⟨r', List.mem_cons_of_mem rt hr', h2⟩
      | some t =>
          rw [hmt] at hk
          obtain ⟨hokt, hdlt⟩ := hrt.2 t hmt
          rcases runScan_go_keys md ex rest _ hrest k hk with h1 | ⟨r', hr', h2⟩
          · rcases scanDirectory_keys md ex rt.1 t acc.1 hokt hdlt hrt.1 k h1 with h2 | h2
            · exact Or.inl h2
            · exact Or.inr ⟨rt, List.mem_cons_self rt rest, h2⟩
          · exact Or.inr ⟨r', List.mem_cons_of_mem rt hr', h2⟩

theorem runScan_keys (md : Int) (ex : List Path) (roots : List (Path × Option FSEntry))
    (hroots : ∀ rt ∈ roots, rt.1 ≠ [] ∧ ∀ t, rt.2 = some t →
      FSEntry.ok t = true ∧ isDirLike t = true) :
    ∀ k ∈ (runScan md ex roots).1.map Prod.fst, ∃ rt ∈ roots, belowEq rt.1 k := by
  intro k hk
  rcases runScan_go_keys md ex roots ([], 0) hroots k hk with h1 | h1
  · simp at h1
  · exact h1

/-- C9: after aggregation, the collection handed to the reporter is filtered
with `isUnderTargets`; every entry that survives the filter has a path lying
under one of the scanned roots, and an entry whose path does not lie under
any root never reaches the output views. -/
theorem claim9_output_under_roots (md : Int) (ex : List Path)
    (roots : List (Path × Option FSEntry))
    (hroots : ∀ rt ∈ roots, rt.1 ≠ [] ∧ ∀ t, rt.2 = some t →
      FSEntry.ok t = true ∧ isDirLike t = true) :
    (∀ e ∈ filterStats (roots.map Prod.fst) (aggregateStats (runScan md ex roots).1),
      ∃ r ∈ roots.map Prod.fst, belowEq r e.1) ∧
    (∀ e ∈ aggregateStats (runScan md ex roots).1,
      (∀ r ∈ roots.map Prod.fst, ¬ belowEq r e.1) →
      e.1 ∉ (filterStats (roots.map Prod.fst)
        (aggregateStats (runScan md ex roots).1)).map Prod.fst) := by
  have hkey : ∀ e ∈ aggregateStats (runScan md ex roots).1,
      ∃ rt ∈ roots, belowEq rt.1 e.1 := by
    intro e he
    have h1 : e.1 ∈ (aggregateStats (runScan md ex roots).1).map Prod.fst :=
      List.mem_map_of_mem Prod.fst he
    rw [keys_aggregateStats] at h1
    exact runScan_keys md ex roots hroots e.1 h1
  constructor
  · intro e he
    have he' : e ∈ aggregateStats (runScan md ex roots).1 :=
      List.mem_of_mem_filter he
    obtain ⟨rt, hrt, hb⟩ := hkey e he'
    exact ⟨rt.1, List.mem_map_of_mem Prod.fst hrt, hb⟩
  · intro e he hnone hmem
    obtain ⟨rt, hrt, hb⟩ := hkey e he
    exact hnone rt.1 (List.mem_map_of_mem Prod.fst hrt) hb

/-- Witness for C9 on a concrete two-root run (one of the roots failing to
resolve), with hypotheses discharged by evaluation. -/
theorem claim9_witness :
    (filterStats (([("/r".data, some exclTree), ("/gone".data, none)].map Prod.fst))
      (aggregateStats (runScan 1000000 defaultExclude
        [("/r".data, some exclTree), ("/gone".data, none)]).1)).all
      (fun e => decide (belowEq ("/r".data) e.1) || decide (belowEq ("/gone".data) e.1))
      = true := by
  rw [List.all_eq_true]
  intro e he
  obtain ⟨r, hr, hb⟩ := (claim9_output_under_roots 1000000 defaultExclude
    [("/r".data, some exclTree), ("/gone".data, none)]
    (by
      intro rt hrt
      rcases List.mem_cons.mp hrt with rfl | hrt'
      · exact ⟨by decide, fun t ht => by
          injection ht with ht
          subst ht
          exact ⟨by decide, by decide⟩⟩
      · rcases List.mem_cons.mp hrt' with rfl | hrt''
        · exact ⟨by decide, fun t ht => by cases ht⟩
        · cases hrt'')).1 e he
  rw [Bool.or_eq_true]
  rcases List.mem_cons.mp hr with rfl | hr'
  · exact Or.inl (decide_eq_true hb)
  · rcases List.mem_cons.mp hr' with rfl | hr''
    · exact Or.inr (decide_eq_true hb)
    · cases hr''

end FindHeavyDirs
